import Mathlib

/-!
# Iterative SAXPY with worker threads: partition, update and per-iteration averages

A shallow embedding of the three C sources of the repository:

* `src/saxpy.c` (namespace `Saxpy`): N workers, each owning one contiguous slice of
  `Y`, synchronised by two barrier waits per iteration; worker 0 reduces the partial sums
  into `Y_avgs[it]` and advances the shared counter `it`.
* `src/src/saxpy_carlos.c` (namespace `SaxpyCarlos`): a worker whose loop index `i`
  and counter `it` are globals.
* `src/src/saxpy2.c` (namespace `Saxpy2`): two workers, each with its own average
  vector, combined by `main` on entry 0.

Conventions. `double` values are exact rationals. C `int` values that the program keeps
inside `[0, p]` or `[0, max_iters]` (`id`, `start`, `end`, `i`, `it`) are natural numbers;
since `p <= 2^31 - 1` none of the products `id * chunk_size`, `(id + 1) * chunk_size`
leaves the `int` range for `id < n_threads <= p`. The command-line values compared by the
configuration check are integers, because they can be zero or negative. Arrays are lists;
`Y[i]` is `Y.getD i 0` and `Y[i] = v` is `Y.set i v`. A rational divided by zero is zero,
where C gives an infinity or a NaN; the divisors below are `p`, `p / 2` and `p - p / 2`,
which are positive under the assumptions of the statements that divide by them, except
where a docstring says otherwise.

Loops with a local index that the body does not change are folds over the list of index
values. Loops on a shared or global counter (`while(it < max_iters)` in saxpy.c, both
loops of saxpy_carlos.c) take fuel and return `none` when it runs out; the statements
about them show that enough fuel gives a result.
-/

namespace Saxpy

/-! ## Partition of the index range (saxpy.c, lines 50-53) -/

/-- The value of `int chunk_size = p / n_threads;`. -/
def chunk_size (p n_threads : Nat) : Nat := p / n_threads

/-- The value of `int start = id * chunk_size;`. -/
def start (p n_threads id : Nat) : Nat := id * chunk_size p n_threads

/-- The value of `int end = (id == n_threads - 1) ? p : (id + 1) * chunk_size;`.
The comparison is made on integers, as in C, so that `n_threads = 0` gives `-1`. -/
def end_ (p n_threads id : Nat) : Nat :=
  if (id : Int) = (n_threads : Int) - 1 then p else (id + 1) * chunk_size p n_threads

/-- Number of indices in the range of worker `id`. -/
def size (p n_threads id : Nat) : Nat := end_ p n_threads id - start p n_threads id

/-! ## Configuration check of `main` (saxpy.c, lines 165-168) -/

/-- The guard `if(n_threads > p){ printf(...); return 1; }` that `main` executes before
the barrier is initialised and before any thread is created: `some 1` is the returned
exit status, `none` means that control continues to the thread creation. -/
def main_check (p n_threads : Int) : Option Int :=
  if n_threads > p then some 1 else none

/-! ## Shared memory and the worker function (saxpy.c, lines 22-77) -/

/-- The by-value fields of the C struct `Argumentos`. Its pointer fields `X`, `Y`, `Y_avgs`
and `partial_sums` are the same four arrays for every worker and live in `Shared`. -/
structure Argumentos where
  id : Nat
  max_iters : Nat
  p : Nat
  n_threads : Nat
  a : ℚ
deriving DecidableEq

/-- The memory that all workers share: the four arrays reached through the pointers of
`Argumentos`, and the global counter `int it`. -/
structure Shared where
  X : List ℚ
  Y : List ℚ
  Y_avgs : List ℚ
  partial_sums : List ℚ
  it : Nat
deriving DecidableEq

/-- One pass of the body of `for (i = start; i < end; i++)`: `Y[i] = Y[i] + a * X[i];
partial_sum += Y[i];` on the pair (array `Y`, local `partial_sum`). -/
def update_step (a : ℚ) (X : List ℚ) (st : List ℚ × ℚ) (i : Nat) : List ℚ × ℚ :=
  let Y := st.1.set i (st.1.getD i 0 + a * X.getD i 0)
  (Y, st.2 + Y.getD i 0)

/-- Lines 56-61 of the loop body, up to the first barrier wait: the local partial sum
starts at zero, the worker updates its range and publishes `partial_sums[id]`. -/
def compute (args : Argumentos) (s : Shared) : Shared :=
  let lo := start args.p args.n_threads args.id
  let hi := end_ args.p args.n_threads args.id
  let r := (List.range' lo (hi - lo)).foldl (update_step args.a s.X) (s.Y, 0)
  { s with Y := r.1, partial_sums := s.partial_sums.set args.id r.2 }

/-- Lines 65-71 of the loop body, between the two barrier waits: worker 0 adds every
partial sum into `Y_avgs[it]`, divides it by `p` and increments `it`; the other workers
do nothing. -/
def reduce (args : Argumentos) (s : Shared) : Shared :=
  if args.id = 0 then
    let avgs := (List.range args.n_threads).foldl
      (fun Y_avgs i => Y_avgs.set s.it (Y_avgs.getD s.it 0 + s.partial_sums.getD i 0))
      s.Y_avgs
    { s with Y_avgs := avgs.set s.it (avgs.getD s.it 0 / (args.p : ℚ)), it := s.it + 1 }
  else s

/-- One iteration of the body of `while(it < max_iters)` as executed by one worker. -/
def loop_body (args : Argumentos) (s : Shared) : Shared :=
  reduce args (compute args s)

/-- The record `args[i]` that `main` fills in before `pthread_create` (lines 176-186). -/
def main_args (max_iters p n_threads : Nat) (a : ℚ) (i : Nat) : Argumentos :=
  { id := i, max_iters := max_iters, p := p, n_threads := n_threads, a := a }

/-- One iteration in barrier order. `order` lists the worker ids in the order in which
the workers happen to take their turns: every worker runs its compute phase, all of them
pass the first barrier, then every worker runs the code between the barriers (only worker
0 acts), and all of them pass the second barrier. -/
def round (max_iters p n_threads : Nat) (a : ℚ) (order : List Nat) (s : Shared) : Shared :=
  let workers := order.map (main_args max_iters p n_threads a)
  workers.foldl (fun s w => reduce w s) (workers.foldl (fun s w => compute w s) s)

/-- The loops `while(it < max_iters)` of the workers in barrier order. All workers test
the same value of `it`, since it changes only between the two barriers. `sched r` is the
order of the workers during iteration `r`. `none` means that the fuel ran out while the
condition still held. -/
def run (max_iters p n_threads : Nat) (a : ℚ) (sched : Nat → List Nat) :
    Nat → Shared → Option Shared
  | 0, s => if s.it < max_iters then none else some s
  | fuel + 1, s =>
    if s.it < max_iters then
      run max_iters p n_threads a sched fuel (round max_iters p n_threads a (sched s.it) s)
    else some s

/-- The shared memory after `k` further iterations have been completed by all workers,
in barrier order. -/
def after_rounds (max_iters p n_threads : Nat) (a : ℚ) (sched : Nat → List Nat) (k : Nat)
    (s : Shared) : Shared :=
  (fun t => round max_iters p n_threads a (sched t.it) t)^[k] s

/-- The shared memory when the threads are created: `X`, `Y` as given, `Y_avgs` set to
`0.0` by the loop at lines 140-142, `partial_sums` fresh from `malloc` (any contents,
`n_threads` cells), and the global `it = 0`. -/
def init (max_iters : Nat) (X Y partial_sums : List ℚ) : Shared :=
  { X := X, Y := Y, Y_avgs := List.replicate max_iters 0, partial_sums := partial_sums,
    it := 0 }

/-- Reference computation, sequential and independent of the partition: one SAXPY update
of the whole vector. -/
def seq_update (a : ℚ) (X Y : List ℚ) : List ℚ :=
  List.zipWith (fun y x => y + a * x) Y X

/-- Reference computation: arithmetic mean of a vector of `p` entries. -/
def seq_mean (p : Nat) (Y : List ℚ) : ℚ := Y.sum / (p : ℚ)

/-! ## The workers as interleaved threads (saxpy.c, lines 55-76 and 173-187)

Each worker is a thread with a program point; a step of the system is one step of one
thread. The compute phase (lines 56-61) and the code between the two waits (lines 65-71)
are one step each: the statements about this model concern the order of these phases, not
what happens inside them. The barrier is given by its contract: the `k`-th call of
`pthread_barrier_wait` by a thread returns only when every one of the `n_threads` threads
has made its `k`-th call. The functions `round` and `run` above are the interleavings of
this system in which the workers take their phases one after the other. -/

/-- Program points of the worker function. -/
inductive PC where
  /-- Line 55: about to evaluate `it < max_iters`. -/
  | test
  /-- Line 56: about to run the compute phase, lines 56-61. -/
  | work
  /-- Line 64: about to call `pthread_barrier_wait` for the first time in this iteration. -/
  | callA
  /-- Inside the first `pthread_barrier_wait`. -/
  | inA
  /-- Line 65: about to run the code between the waits, lines 65-71. -/
  | mid
  /-- Line 73: about to call `pthread_barrier_wait` for the second time. -/
  | callB
  /-- Inside the second `pthread_barrier_wait`. -/
  | inB
  /-- Line 76: the loop has been left. -/
  | done
deriving DecidableEq

/-- One worker thread: its program point and three history counters, none of which the
program reads: how many times it has published its partial sum (finished lines 56-61),
how many calls of `pthread_barrier_wait` it has made, and how many of them have
returned. -/
structure Thread where
  pc : PC
  published : Nat
  waits : Nat
  returned : Nat
deriving DecidableEq

/-- The system: the worker threads, thread `i` being the one created with `args[i]`, and
the shared memory. -/
structure Config where
  thr : List Thread
  mem : Shared
deriving DecidableEq

/-- Modelled from the spec: `pthread_barrier_wait` is a library function, so the barrier
is given by the contract of section 4.3, that no worker leaves a barrier cycle until all
`n_threads` workers have entered it. A thread `t` inside a wait may return when every
thread has made at least as many calls as `t` has; this is the most permissive barrier
that the contract allows, so every state reachable with a stricter one is reachable
here. -/
def may_leave (c : Config) (t : Thread) : Bool :=
  c.thr.all (fun u => decide (t.waits ≤ u.waits))

/-- One step of thread `i`; `none` when the thread does not exist, is blocked in a wait,
or has finished. -/
def step (max_iters p n_threads : Nat) (a : ℚ) (i : Nat) (c : Config) : Option Config :=
  match c.thr[i]? with
  | none => none
  | some t =>
    match t.pc with
    | PC.test =>
      let pc := if c.mem.it < max_iters then PC.work else PC.done
      some { c with thr := c.thr.set i { t with pc := pc } }
    | PC.work =>
      some { thr := c.thr.set i { t with pc := PC.callA, published := t.published + 1 },
             mem := compute (main_args max_iters p n_threads a i) c.mem }
    | PC.callA =>
      some { c with thr := c.thr.set i { t with pc := PC.inA, waits := t.waits + 1 } }
    | PC.inA =>
      if may_leave c t then
        some { c with thr := c.thr.set i { t with pc := PC.mid, returned := t.returned + 1 } }
      else none
    | PC.mid =>
      some { thr := c.thr.set i { t with pc := PC.callB },
             mem := reduce (main_args max_iters p n_threads a i) c.mem }
    | PC.callB =>
      some { c with thr := c.thr.set i { t with pc := PC.inB, waits := t.waits + 1 } }
    | PC.inB =>
      if may_leave c t then
        some { c with thr := c.thr.set i { t with pc := PC.test, returned := t.returned + 1 } }
      else none
    | PC.done => none

/-- An interleaving: the threads named in `sched` take one step each, in that order;
`none` when one of them cannot take its step. -/
def exec (max_iters p n_threads : Nat) (a : ℚ) : List Nat → Config → Option Config
  | [], c => some c
  | i :: rest, c =>
    match step max_iters p n_threads a i c with
    | none => none
    | some c1 => exec max_iters p n_threads a rest c1

/-- The system once `main` has initialised the barrier for `n_threads` parties and
created the threads: every worker is at the loop test and has called nothing yet. -/
def start_config (n_threads : Nat) (mem : Shared) : Config :=
  { thr := List.replicate n_threads { pc := PC.test, published := 0, waits := 0, returned := 0 },
    mem := mem }

/-- Relation between the program point of a thread and its counters, kept by every step:
the thread is in iteration `k = published - 1` once it has published, has called the
barrier `2k`, `2k + 1` or `2k + 2` times, and is inside a wait exactly when one call has
not returned. -/
def shape (u : Thread) : Prop :=
  match u.pc with
  | PC.test => u.waits = 2 * u.published ∧ u.returned = u.waits
  | PC.work => u.waits = 2 * u.published ∧ u.returned = u.waits
  | PC.callA => u.waits + 2 = 2 * u.published ∧ u.returned = u.waits
  | PC.inA => u.waits + 1 = 2 * u.published ∧ u.returned + 1 = u.waits
  | PC.mid => u.waits + 1 = 2 * u.published ∧ u.returned = u.waits
  | PC.callB => u.waits + 1 = 2 * u.published ∧ u.returned = u.waits
  | PC.inB => u.waits = 2 * u.published ∧ u.returned + 1 = u.waits
  | PC.done => u.waits = 2 * u.published ∧ u.returned = u.waits

/-- Number of reductions that worker 0 has performed, read off its program point. -/
def reductions (l : Thread) : Nat :=
  match l.pc with
  | PC.callA => l.published - 1
  | PC.inA => l.published - 1
  | PC.mid => l.published - 1
  | _ => l.published

/-- The invariant of the interleaved system. -/
def Inv (c : Config) : Prop :=
  (∀ u, u ∈ c.thr → shape u) ∧
  (∀ u v, u ∈ c.thr → v ∈ c.thr → u.returned ≤ v.waits) ∧
  (∀ l, c.thr[0]? = some l → c.mem.it = reductions l)

end Saxpy

namespace SaxpyCarlos

/-! ## The variant with global loop variables (src/saxpy_carlos.c, lines 29-57) -/

/-- The globals of the file that the worker uses: `p`, `max_iters`, the loop variables
`i` and `it` (line 33), the vectors and the scalar. -/
structure Globals where
  p : Nat
  max_iters : Nat
  i : Nat
  it : Nat
  X : List ℚ
  a : ℚ
  Y : List ℚ
  Y_avgs : List ℚ
deriving DecidableEq

/-- Body and increment of the inner loop: `Y[i] = Y[i] + a * X[i]; Y_avgs[it] += Y[i];`
followed by `i++`, all on the globals. -/
def inner_step (g : Globals) : Globals :=
  let Y := g.Y.set g.i (g.Y.getD g.i 0 + g.a * g.X.getD g.i 0)
  { g with Y := Y, Y_avgs := g.Y_avgs.set g.it (g.Y_avgs.getD g.it 0 + Y.getD g.i 0),
           i := g.i + 1 }

/-- The loop `for(i; i < sup; i++)`: it has no initialisation, so it starts from the
current value of the global `i`. `none` means that the fuel ran out while `i < sup`. -/
def inner_loop (sup : Nat) : Nat → Globals → Option Globals
  | 0, g => if g.i < sup then none else some g
  | fuel + 1, g => if g.i < sup then inner_loop sup fuel (inner_step g) else some g

/-- The statement `Y_avgs[it] = Y_avgs[it] / p;` followed by the increment `it++` of the
outer loop. -/
def outer_tail (g : Globals) : Globals :=
  { g with Y_avgs := g.Y_avgs.set g.it (g.Y_avgs.getD g.it 0 / (g.p : ℚ)), it := g.it + 1 }

/-- The loop `for(it = 0; it < max_iters; it++)` after its initialisation; `fuel_i` is
the fuel handed to every run of the inner loop. -/
def outer_loop (sup fuel_i : Nat) : Nat → Globals → Option Globals
  | 0, g => if g.it < g.max_iters then none else some g
  | fuel + 1, g =>
    if g.it < g.max_iters then
      match inner_loop sup fuel_i g with
      | none => none
      | some g1 => outer_loop sup fuel_i fuel (outer_tail g1)
    else some g

/-- One uninterrupted call `saxpy(&args)` with `args.limite_inferior = lo` and
`args.limite_superior = sup`: `i = args->limite_inferior;` then the outer loop, whose
initialisation is `it = 0`. -/
def saxpy (lo sup : Nat) (fuel : Nat) (g : Globals) : Option Globals :=
  outer_loop sup fuel fuel { g with i := lo, it := 0 }

end SaxpyCarlos

namespace Saxpy2

/-! ## The variant with two workers and two average vectors (src/saxpy2.c) -/

/-- Body of the inner loop: `Y[j] = Y[j] + a * X[j]; v_p[it] += Y[j];` on the pair
(global `Y`, the vector `v_p` that `args->vector_promedios` points to). -/
def inner_step (a : ℚ) (X : List ℚ) (it : Nat) (st : List ℚ × List ℚ) (j : Nat) :
    List ℚ × List ℚ :=
  let Y := st.1.set j (st.1.getD j 0 + a * X.getD j 0)
  (Y, st.2.set it (st.2.getD it 0 + Y.getD j 0))

/-- One pass of the outer loop body: `j` runs from `limite_inferior` up to `sup`, then
`v_p[it] = v_p[it] / (sup-(args->limite_inferior));` with an `int` difference. -/
def iteration (a : ℚ) (X : List ℚ) (lo sup : Nat) (st : List ℚ × List ℚ) (it : Nat) :
    List ℚ × List ℚ :=
  let r := (List.range' lo (sup - lo)).foldl (inner_step a X it) st
  (r.1, r.2.set it (r.2.getD it 0 / (((sup : Int) - (lo : Int) : Int) : ℚ)))

/-- The worker: `for(it = 0; it < max_iters; it++)` with a local `it`. -/
def saxpy (max_iters : Nat) (a : ℚ) (X : List ℚ) (lo sup : Nat) (st : List ℚ × List ℚ) :
    List ℚ × List ℚ :=
  (List.range max_iters).foldl (iteration a X lo sup) st

/-- Lines 110-153 of `main`: `Y_avgs` is set to zero and copied into `Y_avgs_copy`, the
first worker gets `[0, p/2)` and `Y_avgs`, the second `[p/2, p)` and `Y_avgs_copy`; after
both joins `*Y_avgs = (*Y_avgs + *Y_avgs_copy) / 2;`. The two workers write disjoint cells
of `Y` and different average vectors, so they are run one after the other, the first
created first (`main_swapped` is the other order). The result is the final `Y` and the
final `Y_avgs`. -/
def main (p max_iters : Nat) (X Y : List ℚ) (a : ℚ) : List ℚ × List ℚ :=
  let Y_avgs := List.replicate max_iters (0 : ℚ)
  let Y_avgs_copy := Y_avgs
  let t1 := saxpy max_iters a X 0 (p / 2) (Y, Y_avgs)
  let t2 := saxpy max_iters a X (p / 2) p (t1.1, Y_avgs_copy)
  (t2.1, t1.2.set 0 ((t1.2.getD 0 0 + t2.2.getD 0 0) / 2))

/-- The same lines of `main` with the second worker run to completion before the first
one starts. -/
def main_swapped (p max_iters : Nat) (X Y : List ℚ) (a : ℚ) : List ℚ × List ℚ :=
  let Y_avgs := List.replicate max_iters (0 : ℚ)
  let Y_avgs_copy := Y_avgs
  let t2 := saxpy max_iters a X (p / 2) p (Y, Y_avgs_copy)
  let t1 := saxpy max_iters a X 0 (p / 2) (t2.1, Y_avgs)
  (t1.1, t1.2.set 0 ((t1.2.getD 0 0 + t2.2.getD 0 0) / 2))

end Saxpy2

namespace Saxpy

/-! ## Facts about the partition -/

theorem chunk_size_pos {p n : Nat} (h1 : 1 ≤ n) (h2 : n ≤ p) : 1 ≤ chunk_size p n := by
  unfold chunk_size
  exact (Nat.one_le_div_iff (by omega)).mpr h2

theorem chunk_mul_le (p n : Nat) : n * chunk_size p n ≤ p := by
  unfold chunk_size
  exact Nat.mul_div_le p n

theorem end_of_last {p n : Nat} (h1 : 1 ≤ n) : end_ p n (n - 1) = p := by
  unfold end_
  rw [if_pos (by omega)]

theorem end_of_inner {p n i : Nat} (h : i + 1 < n) :
    end_ p n i = (i + 1) * chunk_size p n := by
  unfold end_
  rw [if_neg (by omega)]

theorem end_le {p n i : Nat} (hi : i < n) : end_ p n i ≤ p := by
  by_cases hl : i + 1 < n
  · rw [end_of_inner hl]
    exact le_trans (Nat.mul_le_mul_right _ (by omega)) (chunk_mul_le p n)
  · have : i = n - 1 := by omega
    subst this
    rw [end_of_last (by omega)]

theorem start_le_end {p n i : Nat} (hi : i < n) : start p n i ≤ end_ p n i := by
  by_cases hl : i + 1 < n
  · rw [end_of_inner hl]
    exact Nat.mul_le_mul_right _ (by omega)
  · have : i = n - 1 := by omega
    subst this
    rw [end_of_last (by omega)]
    exact le_trans (Nat.mul_le_mul_right _ (by omega)) (chunk_mul_le p n)

theorem start_lt_end {p n i : Nat} (h1 : 1 ≤ n) (h2 : n ≤ p) (hi : i < n) :
    start p n i < end_ p n i := by
  have hc := chunk_size_pos h1 h2
  by_cases hl : i + 1 < n
  · rw [end_of_inner hl]
    unfold start
    rw [Nat.add_mul]
    omega
  · obtain ⟨m, rfl⟩ : ∃ m, n = m + 1 := ⟨n - 1, by omega⟩
    have : i = m := by omega
    subst this
    rw [show end_ p (i + 1) i = end_ p (i + 1) (i + 1 - 1) from rfl, end_of_last (by omega)]
    have h3 := chunk_mul_le p (i + 1)
    rw [Nat.add_mul] at h3
    unfold start
    omega

theorem end_eq_start_succ {p n i : Nat} (h : i + 1 < n) :
    end_ p n i = start p n (i + 1) := by
  rw [end_of_inner h]
  rfl

theorem end_le_start_of_lt {p n i j : Nat} (hij : i < j) (hj : j < n) :
    end_ p n i ≤ start p n j := by
  rw [end_of_inner (by omega)]
  exact Nat.mul_le_mul_right _ (by omega)

theorem ranges_disjoint {p n i j x : Nat} (hi : i < n) (hj : j < n) (hne : i ≠ j) :
    ¬ (start p n i ≤ x ∧ x < end_ p n i ∧ start p n j ≤ x ∧ x < end_ p n j) := by
  intro ⟨a1, a2, a3, a4⟩
  rcases Nat.lt_or_gt_of_ne hne with h | h
  · have := end_le_start_of_lt (p := p) h hj
    omega
  · have := end_le_start_of_lt (p := p) h hi
    omega

theorem ranges_cover {p n x : Nat} (h1 : 1 ≤ n) (hx : x < p) :
    ∃ i, i < n ∧ start p n i ≤ x ∧ x < end_ p n i := by
  by_cases hq : 0 < chunk_size p n ∧ x / chunk_size p n + 1 < n
  · refine ⟨x / chunk_size p n, by omega, ?_, ?_⟩
    · unfold start
      exact Nat.div_mul_le_self x _
    · rw [end_of_inner hq.2, Nat.mul_comm]
      exact Nat.lt_mul_div_succ x hq.1
  · refine ⟨n - 1, by omega, ?_, ?_⟩
    · unfold start
      by_cases hc : 0 < chunk_size p n
      · have h3 : (n - 1) * chunk_size p n ≤ (x / chunk_size p n) * chunk_size p n :=
          Nat.mul_le_mul_right _ (by omega)
        exact le_trans h3 (Nat.div_mul_le_self x _)
      · rw [show chunk_size p n = 0 by omega, Nat.mul_zero]
        exact Nat.zero_le x
    · rw [end_of_last h1]
      exact hx

/-- Claim C1: for `1 <= n <= p` the ranges `[start_i, end_i)` of the workers `0 .. n-1`
partition `[0, p)`: the first starts at 0, the last ends at `p`, consecutive ranges
touch, every range is non-empty and stays inside `[0, p)`, two different ranges share no
index, every index below `p` lies in some range, and every index that the update loop of
a worker visits is below `p`. -/
theorem partition_ranges (p n : Nat) (h1 : 1 ≤ n) (h2 : n ≤ p) :
    start p n 0 = 0 ∧ end_ p n (n - 1) = p ∧
    (∀ i, i + 1 < n → end_ p n i = start p n (i + 1)) ∧
    (∀ i, i < n → start p n i < end_ p n i) ∧
    (∀ i, i < n → end_ p n i ≤ p) ∧
    (∀ i j x, i < n → j < n → i ≠ j →
      ¬ (start p n i ≤ x ∧ x < end_ p n i ∧ start p n j ≤ x ∧ x < end_ p n j)) ∧
    (∀ x, x < p → ∃ i, i < n ∧ start p n i ≤ x ∧ x < end_ p n i) ∧
    (∀ i, i < n → ∀ x, x ∈ List.range' (start p n i) (end_ p n i - start p n i) → x < p) := by
  refine ⟨by simp [start], end_of_last h1, fun i h => end_eq_start_succ h,
    fun i hi => start_lt_end h1 h2 hi, fun i hi => end_le hi,
    fun i j x hi hj hne => ranges_disjoint hi hj hne, fun x hx => ranges_cover h1 hx, ?_⟩
  intro i hi x hx
  have h3 := end_le (p := p) hi
  rw [List.mem_range'_1] at hx
  omega

/-- Concrete instance: `p = 5`, `n = 3`. -/
theorem partition_ranges_witness :
    start 5 3 0 = 0 ∧ end_ 5 3 (3 - 1) = 5 ∧
    (∀ i, i + 1 < 3 → end_ 5 3 i = start 5 3 (i + 1)) ∧
    (∀ i, i < 3 → start 5 3 i < end_ 5 3 i) ∧
    (∀ i, i < 3 → end_ 5 3 i ≤ 5) ∧
    (∀ i j x, i < 3 → j < 3 → i ≠ j →
      ¬ (start 5 3 i ≤ x ∧ x < end_ 5 3 i ∧ start 5 3 j ≤ x ∧ x < end_ 5 3 j)) ∧
    (∀ x, x < 5 → ∃ i, i < 3 ∧ start 5 3 i ≤ x ∧ x < end_ 5 3 i) ∧
    (∀ i, i < 3 → ∀ x, x ∈ List.range' (start 5 3 i) (end_ 5 3 i - start 5 3 i) → x < 5) :=
  partition_ranges 5 3 (by decide) (by decide)

theorem size_of_inner {p n i : Nat} (h : i + 1 < n) : size p n i = chunk_size p n := by
  unfold size
  rw [end_of_inner h]
  unfold start
  rw [Nat.add_mul]
  omega

theorem size_of_last {p n : Nat} (h1 : 1 ≤ n) :
    size p n (n - 1) = chunk_size p n + p % n := by
  unfold size
  rw [end_of_last h1]
  obtain ⟨m, rfl⟩ : ∃ m, n = m + 1 := ⟨n - 1, by omega⟩
  unfold start chunk_size
  have h3 := Nat.div_add_mod p (m + 1)
  rw [Nat.add_mul] at h3
  simp only [Nat.add_sub_cancel, Nat.one_mul] at h3 ⊢
  have h4 : ∀ k q r : Nat, k + q + r = p → p - k = q + r := fun k q r h => by omega
  exact h4 _ _ _ h3

/-- Claim C2 fails as stated: for `p = 5`, `n = 3` the ranges are `[0,1)`,
`[1,2)`, `[2,5)`, so the sizes of workers 0 and 2 differ by two. -/
theorem sizes_within_one_fails :
    ¬ (∀ p n i j : Nat, 1 ≤ n → n ≤ p → i < n → j < n →
        |(size p n i : Int) - (size p n j : Int)| ≤ 1) := by
  intro h
  have := h 5 3 0 2 (by decide) (by decide) (by decide) (by decide)
  revert this
  decide

/-- Claim C2, amended: for `1 <= n <= p` every range but the last has `p / n` indices and
the last has `p / n + p % n`, so two sizes differ by at most `p % n`; they are equal when
`n` divides `p`. -/
theorem sizes_differ_by_remainder (p n : Nat) (h1 : 1 ≤ n) :
    (∀ i, i + 1 < n → size p n i = p / n) ∧
    size p n (n - 1) = p / n + p % n ∧
    (∀ i j, i < n → j < n → |(size p n i : Int) - (size p n j : Int)| ≤ ((p % n : Nat) : Int)) ∧
    (n ∣ p → ∀ i j, i < n → j < n → size p n i = size p n j) := by
  have hin : ∀ i, i + 1 < n → size p n i = p / n := fun i h => size_of_inner h
  have hla : size p n (n - 1) = p / n + p % n := size_of_last h1
  have key : ∀ i, i < n → size p n i = p / n ∨ size p n i = p / n + p % n := by
    intro i hi
    by_cases hl : i + 1 < n
    · exact Or.inl (hin i hl)
    · have : i = n - 1 := by omega
      subst this
      exact Or.inr hla
  refine ⟨hin, hla, ?_, ?_⟩
  · intro i j hi hj
    rcases key i hi with a | a <;> rcases key j hj with b | b <;> rw [a, b] <;>
      simp only [abs_le] <;> omega
  · intro hd i j hi hj
    have h0 : p % n = 0 := Nat.mod_eq_zero_of_dvd hd
    rcases key i hi with a | a <;> rcases key j hj with b | b <;> rw [a, b] <;> omega

/-- Concrete instance of the amended statement: `p = 5`, `n = 3`. -/
theorem sizes_differ_by_remainder_witness :
    (∀ i, i + 1 < 3 → size 5 3 i = 5 / 3) ∧
    size 5 3 (3 - 1) = 5 / 3 + 5 % 3 ∧
    (∀ i j, i < 3 → j < 3 → |(size 5 3 i : Int) - (size 5 3 j : Int)| ≤ ((5 % 3 : Nat) : Int)) ∧
    (3 ∣ 5 → ∀ i j, i < 3 → j < 3 → size 5 3 i = size 5 3 j) :=
  sizes_differ_by_remainder 5 3 (by decide)

/-- The guard of `main` returns the failure status exactly
when `n_threads > p`. -/
theorem main_check_rejects_iff (p n_threads : Int) :
    main_check p n_threads = some 1 ↔ n_threads > p := by
  unfold main_check
  split <;> simp_all

/-- Claim C3 at its failing inputs: with `p = 4` the guard lets `n_threads = 0` and
`n_threads = -1` through, although both satisfy `n_threads <= 0`. -/
theorem main_check_accepts_nonpositive :
    main_check 4 0 = none ∧ main_check 4 (-1) = none ∧ (0 : Int) ≤ 0 ∧ (-1 : Int) ≤ 0 := by
  decide

/-! ## Arrays as lists: reading and writing one cell -/

theorem getD_set_self {l : List ℚ} {i : Nat} (v : ℚ) (h : i < l.length) :
    (l.set i v).getD i 0 = v := by
  simp [List.getD_eq_getElem?_getD, List.getElem?_set_self h]

theorem getD_set_ne {l : List ℚ} {i j : Nat} (v : ℚ) (h : i ≠ j) :
    (l.set i v).getD j 0 = l.getD j 0 := by
  simp [List.getD_eq_getElem?_getD, List.getElem?_set_ne h]

theorem getD_of_length_le {l : List ℚ} {j : Nat} (h : l.length ≤ j) : l.getD j 0 = 0 := by
  simp [List.getD_eq_getElem?_getD, List.getElem?_eq_none h]

theorem sum_eq_sum_getD (l : List ℚ) :
    l.sum = ∑ j in Finset.range l.length, l.getD j 0 := by
  induction l with
  | nil => simp
  | cons x xs ih =>
    rw [List.length_cons, Finset.sum_range_succ', List.sum_cons, ih, add_comm]
    simp

theorem ext_getD {l₁ l₂ : List ℚ} (hlen : l₁.length = l₂.length)
    (h : ∀ j, j < l₁.length → l₁.getD j 0 = l₂.getD j 0) : l₁ = l₂ := by
  apply List.ext_getElem hlen
  intro j h1 h2
  have := h j h1
  simpa [List.getD_eq_getElem?_getD, List.getElem?_eq_getElem h1,
    List.getElem?_eq_getElem h2] using this

/-! ## The update loop of one worker -/

theorem update_step_eq (a : ℚ) (X Y : List ℚ) (acc : ℚ) (i : Nat) :
    update_step a X (Y, acc) i =
      (Y.set i (Y.getD i 0 + a * X.getD i 0),
        acc + (Y.set i (Y.getD i 0 + a * X.getD i 0)).getD i 0) := rfl

theorem update_fold_length (a : ℚ) (X : List ℚ) (k lo : Nat) (Y : List ℚ) (acc : ℚ) :
    ((List.range' lo k).foldl (update_step a X) (Y, acc)).1.length = Y.length := by
  induction k generalizing lo Y acc with
  | zero => simp
  | succ k ih =>
    rw [List.range'_succ, List.foldl_cons, update_step_eq, ih, List.length_set]

theorem update_fold_frame (a : ℚ) (X : List ℚ) (k lo : Nat) (Y : List ℚ) (acc : ℚ) (j : Nat)
    (hj : ¬ (lo ≤ j ∧ j < lo + k)) :
    ((List.range' lo k).foldl (update_step a X) (Y, acc)).1[j]? = Y[j]? := by
  induction k generalizing lo Y acc with
  | zero => simp
  | succ k ih =>
    rw [List.range'_succ, List.foldl_cons, update_step_eq, ih _ _ _ (by omega)]
    exact List.getElem?_set_ne (by omega)

theorem update_fold_spec (a : ℚ) (X : List ℚ) (k lo : Nat) (Y : List ℚ) (acc : ℚ)
    (hb : lo + k ≤ Y.length) :
    (∀ j, ((List.range' lo k).foldl (update_step a X) (Y, acc)).1.getD j 0 =
      if lo ≤ j ∧ j < lo + k then Y.getD j 0 + a * X.getD j 0 else Y.getD j 0) ∧
    ((List.range' lo k).foldl (update_step a X) (Y, acc)).2 =
      acc + ∑ j in Finset.Ico lo (lo + k), (Y.getD j 0 + a * X.getD j 0) := by
  induction k generalizing lo Y acc with
  | zero =>
    refine ⟨fun j => ?_, by simp⟩
    rw [if_neg (by omega)]
    rfl
  | succ k ih =>
    rw [List.range'_succ, List.foldl_cons]
    have hlo : lo < Y.length := by omega
    have hstep : update_step a X (Y, acc) lo =
        (Y.set lo (Y.getD lo 0 + a * X.getD lo 0), acc + (Y.getD lo 0 + a * X.getD lo 0)) := by
      rw [update_step_eq, getD_set_self _ hlo]
    rw [hstep]
    obtain ⟨h1, h2⟩ := ih (lo + 1) (Y.set lo (Y.getD lo 0 + a * X.getD lo 0))
      (acc + (Y.getD lo 0 + a * X.getD lo 0)) (by rw [List.length_set]; omega)
    constructor
    · intro j
      rw [h1 j]
      by_cases hj : j = lo
      · subst hj
        rw [if_neg (by omega), if_pos (by omega), getD_set_self _ hlo]
      · rw [getD_set_ne _ (Ne.symm hj)]
        by_cases hr : lo + 1 ≤ j ∧ j < lo + 1 + k
        · rw [if_pos hr, if_pos (by omega)]
        · rw [if_neg hr, if_neg (by omega)]
    · rw [h2, Finset.sum_eq_sum_Ico_succ_bot (show lo < lo + (k + 1) by omega)]
      have hs : ∑ j in Finset.Ico (lo + 1) (lo + 1 + k),
            ((Y.set lo (Y.getD lo 0 + a * X.getD lo 0)).getD j 0 + a * X.getD j 0) =
          ∑ j in Finset.Ico (lo + 1) (lo + (k + 1)), (Y.getD j 0 + a * X.getD j 0) := by
        rw [show lo + 1 + k = lo + (k + 1) by omega]
        apply Finset.sum_congr rfl
        intro j hj
        rw [Finset.mem_Ico] at hj
        rw [getD_set_ne _ (by omega)]
      rw [hs]
      ring


/-! ## The compute phase of one worker and of all workers -/

/-- Right edge of the part of `[0, p)` owned by the workers `0 .. m-1`. -/
theorem start_succ_or_p {p n m : Nat} (hm : m < n) :
    (if m + 1 < n then start p n (m + 1) else p) = end_ p n m := by
  by_cases h : m + 1 < n
  · rw [if_pos h, end_eq_start_succ h]
  · have : m = n - 1 := by omega
    subst this
    rw [if_neg h, end_of_last (by omega)]

theorem compute_Y_getD (mi p n : Nat) (a : ℚ) (i : Nat) (s : Shared) (hi : i < n)
    (hY : s.Y.length = p) (j : Nat) :
    (compute (main_args mi p n a i) s).Y.getD j 0 =
      if start p n i ≤ j ∧ j < end_ p n i then s.Y.getD j 0 + a * s.X.getD j 0
      else s.Y.getD j 0 := by
  have hle := start_le_end (p := p) hi
  have hep := end_le (p := p) hi
  have h := (update_fold_spec a s.X (end_ p n i - start p n i) (start p n i) s.Y 0
    (by omega)).1 j
  rw [show start p n i + (end_ p n i - start p n i) = end_ p n i by omega] at h
  exact h

theorem compute_partial_sums (mi p n : Nat) (a : ℚ) (i : Nat) (s : Shared) (hi : i < n)
    (hY : s.Y.length = p) :
    (compute (main_args mi p n a i) s).partial_sums =
      s.partial_sums.set i
        (∑ j in Finset.Ico (start p n i) (end_ p n i), (s.Y.getD j 0 + a * s.X.getD j 0)) := by
  have hle := start_le_end (p := p) hi
  have hep := end_le (p := p) hi
  have h := (update_fold_spec a s.X (end_ p n i - start p n i) (start p n i) s.Y 0
    (by omega)).2
  rw [show start p n i + (end_ p n i - start p n i) = end_ p n i by omega, zero_add] at h
  show s.partial_sums.set i _ = _
  exact congrArg _ h

theorem compute_Y_length (w : Argumentos) (s : Shared) :
    (compute w s).Y.length = s.Y.length :=
  update_fold_length _ _ _ _ _ _

/-- The compute phases of the workers listed in `l` (distinct ids below `n`), run one
after the other in that order. -/
theorem computes_spec (mi p n : Nat) (a : ℚ) (l : List Nat) (hl : l.Nodup)
    (hln : ∀ i, i ∈ l → i < n) (s : Shared) (hY : s.Y.length = p)
    (hps : s.partial_sums.length = n) :
    ((l.map (main_args mi p n a)).foldl (fun s w => compute w s) s).X = s.X ∧
    ((l.map (main_args mi p n a)).foldl (fun s w => compute w s) s).Y_avgs = s.Y_avgs ∧
    ((l.map (main_args mi p n a)).foldl (fun s w => compute w s) s).it = s.it ∧
    ((l.map (main_args mi p n a)).foldl (fun s w => compute w s) s).Y.length = p ∧
    ((l.map (main_args mi p n a)).foldl (fun s w => compute w s) s).partial_sums.length = n ∧
    (∀ j, (∃ i, i ∈ l ∧ start p n i ≤ j ∧ j < end_ p n i) →
      ((l.map (main_args mi p n a)).foldl (fun s w => compute w s) s).Y.getD j 0 =
        s.Y.getD j 0 + a * s.X.getD j 0) ∧
    (∀ j, ¬ (∃ i, i ∈ l ∧ start p n i ≤ j ∧ j < end_ p n i) →
      ((l.map (main_args mi p n a)).foldl (fun s w => compute w s) s).Y.getD j 0 =
        s.Y.getD j 0) ∧
    (∀ i, i ∈ l →
      ((l.map (main_args mi p n a)).foldl (fun s w => compute w s) s).partial_sums.getD i 0 =
        ∑ j in Finset.Ico (start p n i) (end_ p n i), (s.Y.getD j 0 + a * s.X.getD j 0)) ∧
    (∀ i, i ∉ l →
      ((l.map (main_args mi p n a)).foldl (fun s w => compute w s) s).partial_sums.getD i 0 =
        s.partial_sums.getD i 0) := by
  induction l generalizing s with
  | nil =>
    exact ⟨rfl, rfl, rfl, hY, hps, fun j ⟨i, hi, _⟩ => absurd hi (List.not_mem_nil i),
      fun _ _ => rfl, fun i hi => absurd hi (List.not_mem_nil i), fun _ _ => rfl⟩
  | cons k l ih =>
    have hkn : k < n := hln k (List.mem_cons_self k l)
    have hkl : k ∉ l := (List.nodup_cons.mp hl).1
    have hYv := compute_Y_getD mi p n a k s hkn hY
    have hpv := compute_partial_sums mi p n a k s hkn hY
    obtain ⟨iX, iA, iit, iYl, ipl, iY1, iY2, ip1, ip2⟩ :=
      ih (List.nodup_cons.mp hl).2 (fun i hi => hln i (List.mem_cons_of_mem k hi))
        (compute (main_args mi p n a k) s) (by rw [compute_Y_length, hY])
        (by rw [hpv, List.length_set, hps])
    rw [List.map_cons, List.foldl_cons]
    have hX1 : (compute (main_args mi p n a k) s).X = s.X := rfl
    refine ⟨iX, iA, iit, iYl, ipl, fun j hj => ?_, fun j hj => ?_, fun i hi => ?_,
      fun i hi => ?_⟩
    · obtain ⟨i, hi, hr1, hr2⟩ := hj
      rcases List.mem_cons.mp hi with rfl | hil
      · have hno : ¬ (∃ i', i' ∈ l ∧ start p n i' ≤ j ∧ j < end_ p n i') := by
          intro ⟨i', hi', h1', h2'⟩
          exact ranges_disjoint hkn (hln i' (List.mem_cons_of_mem i hi'))
            (fun e => hkl (e ▸ hi')) ⟨hr1, hr2, h1', h2'⟩
        rw [iY2 j hno, hYv j, if_pos ⟨hr1, hr2⟩]
      · have hno : ¬ (start p n k ≤ j ∧ j < end_ p n k) := by
          intro ⟨h1', h2'⟩
          exact ranges_disjoint hkn (hln i hi) (fun e => hkl (e ▸ hil)) ⟨h1', h2', hr1, hr2⟩
        rw [iY1 j ⟨i, hil, hr1, hr2⟩, hYv j, if_neg hno, hX1]
    · have hno1 : ¬ (∃ i, i ∈ l ∧ start p n i ≤ j ∧ j < end_ p n i) :=
        fun ⟨i, hi, h⟩ => hj ⟨i, List.mem_cons_of_mem k hi, h⟩
      have hno2 : ¬ (start p n k ≤ j ∧ j < end_ p n k) :=
        fun h => hj ⟨k, List.mem_cons_self k l, h⟩
      rw [iY2 j hno1, hYv j, if_neg hno2]
    · by_cases hil : i ∈ l
      · rw [ip1 i hil]
        apply Finset.sum_congr rfl
        intro j hj
        rw [Finset.mem_Ico] at hj
        have hno : ¬ (start p n k ≤ j ∧ j < end_ p n k) := by
          intro ⟨h1', h2'⟩
          exact ranges_disjoint hkn (hln i hi) (fun e => hkl (e ▸ hil))
            ⟨h1', h2', hj.1, hj.2⟩
        rw [hYv j, if_neg hno, hX1]
      · have hik : i = k := by
          rcases List.mem_cons.mp hi with h | h
          · exact h
          · exact absurd h hil
        subst hik
        rw [ip2 i hil, hpv, getD_set_self _ (by omega)]
    · have hik : i ≠ k := fun e => hi (e ▸ List.mem_cons_self k l)
      rw [ip2 i (fun h => hi (List.mem_cons_of_mem k h)), hpv, getD_set_ne _ (Ne.symm hik)]


/-! ## The reduction of worker 0 -/

theorem reduce_fold_length (ps : List ℚ) (it n : Nat) (A : List ℚ) :
    ((List.range n).foldl (fun B i => B.set it (B.getD it 0 + ps.getD i 0)) A).length
      = A.length := by
  induction n with
  | zero => rfl
  | succ n ih =>
    rw [List.range_succ, List.foldl_append, List.foldl_cons, List.foldl_nil, List.length_set,
      ih]

theorem reduce_fold_frame (ps : List ℚ) (it n : Nat) (A : List ℚ) (m : Nat) (hm : m ≠ it) :
    ((List.range n).foldl (fun B i => B.set it (B.getD it 0 + ps.getD i 0)) A)[m]? = A[m]? := by
  induction n with
  | zero => rfl
  | succ n ih =>
    rw [List.range_succ, List.foldl_append, List.foldl_cons, List.foldl_nil,
      List.getElem?_set_ne (Ne.symm hm), ih]

theorem reduce_fold_value (ps : List ℚ) (it n : Nat) (A : List ℚ) (hit : it < A.length) :
    ((List.range n).foldl (fun B i => B.set it (B.getD it 0 + ps.getD i 0)) A).getD it 0
      = A.getD it 0 + ∑ i in Finset.range n, ps.getD i 0 := by
  induction n with
  | zero => simp
  | succ n ih =>
    rw [List.range_succ, List.foldl_append, List.foldl_cons, List.foldl_nil,
      getD_set_self _ (by rw [reduce_fold_length]; exact hit), ih, Finset.sum_range_succ]
    ring

theorem reduce_of_ne_zero (w : Argumentos) (s : Shared) (h : w.id ≠ 0) : reduce w s = s := by
  unfold reduce
  rw [if_neg h]

theorem reduces_of_nodup (mi p n : Nat) (a : ℚ) (l : List Nat) (hl : l.Nodup) (s : Shared) :
    (l.map (main_args mi p n a)).foldl (fun s w => reduce w s) s =
      if 0 ∈ l then reduce (main_args mi p n a 0) s else s := by
  induction l generalizing s with
  | nil => rfl
  | cons k l ih =>
    have hkl : k ∉ l := (List.nodup_cons.mp hl).1
    rw [List.map_cons, List.foldl_cons, ih (List.nodup_cons.mp hl).2]
    by_cases hk : k = 0
    · subst hk
      rw [if_neg hkl, if_pos (List.mem_cons_self 0 l)]
    · rw [reduce_of_ne_zero _ _ (show (main_args mi p n a k).id ≠ 0 from hk)]
      by_cases h0 : 0 ∈ l
      · rw [if_pos h0, if_pos (List.mem_cons_of_mem k h0)]
      · rw [if_neg h0, if_neg (fun h => by
          rcases List.mem_cons.mp h with e | e
          · exact hk e.symm
          · exact h0 e)]

theorem reduces_eq (mi p n : Nat) (a : ℚ) (l : List Nat) (hp : l.Perm (List.range n))
    (s : Shared) (h1 : 1 ≤ n) :
    (l.map (main_args mi p n a)).foldl (fun s w => reduce w s) s
      = reduce (main_args mi p n a 0) s := by
  rw [reduces_of_nodup mi p n a l (hp.nodup_iff.mpr (List.nodup_range n)) s,
    if_pos (hp.mem_iff.mpr (List.mem_range.mpr (by omega)))]

/-- The partial sums of all workers add up to the sum over `[0, p)`. -/
theorem sum_over_ranges (p n : Nat) (f : Nat → ℚ) (h1 : 1 ≤ n) (m : Nat) (hm : m ≤ n) :
    ∑ i in Finset.range m, ∑ j in Finset.Ico (start p n i) (end_ p n i), f j =
      ∑ j in Finset.range (if m < n then start p n m else p), f j := by
  induction m with
  | zero =>
    rw [if_pos (by omega)]
    simp [start]
  | succ m ih =>
    have hmn : m < n := by omega
    rw [Finset.sum_range_succ, ih (by omega), if_pos hmn, start_succ_or_p hmn]
    exact Finset.sum_range_add_sum_Ico f (start_le_end hmn)


/-! ## One round in barrier order -/

theorem seq_update_length (a : ℚ) (X Y : List ℚ) (h : X.length = Y.length) :
    (seq_update a X Y).length = Y.length := by
  unfold seq_update
  rw [List.length_zipWith, h, Nat.min_self]

theorem seq_update_getD (a : ℚ) (X Y : List ℚ) (h : X.length = Y.length) (j : Nat)
    (hj : j < Y.length) :
    (seq_update a X Y).getD j 0 = Y.getD j 0 + a * X.getD j 0 := by
  have hjx : j < X.length := by omega
  have hjz : j < (seq_update a X Y).length := by rw [seq_update_length a X Y h]; exact hj
  rw [List.getD_eq_getElem _ _ hjz, List.getD_eq_getElem _ _ hj, List.getD_eq_getElem _ _ hjx]
  unfold seq_update
  rw [List.getElem_zipWith]

theorem foldl_compute_it (ws : List Argumentos) (s : Shared) :
    (ws.foldl (fun s w => compute w s) s).it = s.it := by
  induction ws generalizing s with
  | nil => rfl
  | cons w ws ih => rw [List.foldl_cons, ih]; rfl

theorem reduce_zero (mi p n : Nat) (a : ℚ) (s1 : Shared) :
    reduce (main_args mi p n a 0) s1 =
      { s1 with
        Y_avgs := ((List.range n).foldl
          (fun B i => B.set s1.it (B.getD s1.it 0 + s1.partial_sums.getD i 0)) s1.Y_avgs).set
            s1.it (((List.range n).foldl
              (fun B i => B.set s1.it (B.getD s1.it 0 + s1.partial_sums.getD i 0))
                s1.Y_avgs).getD s1.it 0 / (p : ℚ)),
        it := s1.it + 1 } := by
  unfold reduce
  rw [if_pos (show (main_args mi p n a 0).id = 0 from rfl)]
  rfl

theorem round_eq (mi p n : Nat) (a : ℚ) (l : List Nat) (hp : l.Perm (List.range n))
    (s : Shared) (h1 : 1 ≤ n) :
    round mi p n a l s = reduce (main_args mi p n a 0)
      ((l.map (main_args mi p n a)).foldl (fun s w => compute w s) s) := by
  unfold round
  simp only
  rw [reduces_eq mi p n a l hp _ h1]

theorem round_it (mi p n : Nat) (a : ℚ) (l : List Nat) (hp : l.Perm (List.range n))
    (s : Shared) (h1 : 1 ≤ n) :
    (round mi p n a l s).it = s.it + 1 := by
  rw [round_eq mi p n a l hp s h1, reduce_zero]
  show (List.foldl (fun s w => compute w s) s _).it + 1 = _
  rw [foldl_compute_it]

theorem round_spec (mi p n : Nat) (a : ℚ) (l : List Nat) (hp : l.Perm (List.range n))
    (s : Shared) (h1 : 1 ≤ n)
    (hX : s.X.length = p) (hY : s.Y.length = p) (hps : s.partial_sums.length = n)
    (hit : s.it < s.Y_avgs.length) :
    (round mi p n a l s).X = s.X ∧
    (round mi p n a l s).Y = seq_update a s.X s.Y ∧
    (round mi p n a l s).partial_sums.length = n ∧
    (round mi p n a l s).Y_avgs.length = s.Y_avgs.length ∧
    (round mi p n a l s).it = s.it + 1 ∧
    (round mi p n a l s).Y_avgs.getD s.it 0 =
      (s.Y_avgs.getD s.it 0 + (seq_update a s.X s.Y).sum) / (p : ℚ) ∧
    (∀ m, m ≠ s.it → (round mi p n a l s).Y_avgs[m]? = s.Y_avgs[m]?) := by
  have hmem : ∀ i, i ∈ l ↔ i < n := fun i => by rw [hp.mem_iff, List.mem_range]
  obtain ⟨cX, cA, cit, cYl, cpl, cY1, _, cp1, _⟩ := computes_spec mi p n a l
    (hp.nodup_iff.mpr (List.nodup_range n)) (fun i hi => (hmem i).mp hi) s hY hps
  rw [round_eq mi p n a l hp s h1]
  generalize (l.map (main_args mi p n a)).foldl (fun s w => compute w s) s
    = s1 at cX cA cit cYl cpl cY1 cp1
  have hYeq : s1.Y = seq_update a s.X s.Y := by
    apply ext_getD
    · rw [cYl, seq_update_length a _ _ (by omega), hY]
    · intro j hj
      obtain ⟨i, hi, hr⟩ := ranges_cover (p := p) h1 (show j < p by omega)
      rw [cY1 j ⟨i, (hmem i).mpr hi, hr⟩, seq_update_getD a _ _ (by omega) j (by omega)]
  have hsum : ∑ i in Finset.range n, s1.partial_sums.getD i 0 = (seq_update a s.X s.Y).sum := by
    rw [sum_eq_sum_getD, seq_update_length a _ _ (by omega), hY]
    have h3 := sum_over_ranges p n (fun j => s.Y.getD j 0 + a * s.X.getD j 0) h1 n le_rfl
    rw [if_neg (lt_irrefl n)] at h3
    have h4 : ∑ j in Finset.range p, (seq_update a s.X s.Y).getD j 0 =
        ∑ j in Finset.range p, (s.Y.getD j 0 + a * s.X.getD j 0) := by
      apply Finset.sum_congr rfl
      intro j hj
      rw [Finset.mem_range] at hj
      exact seq_update_getD a s.X s.Y (by omega) j (by omega)
    rw [h4, ← h3]
    apply Finset.sum_congr rfl
    intro i hi
    rw [Finset.mem_range] at hi
    rw [cp1 i ((hmem i).mpr hi)]
  rw [reduce_zero]
  have hit1 : s1.it < s1.Y_avgs.length := by rw [cit, cA]; exact hit
  refine ⟨cX, hYeq, cpl, ?_, by rw [← cit], ?_, ?_⟩
  · show (List.set _ _ _).length = _
    rw [List.length_set, reduce_fold_length, cA]
  · show (List.set _ _ _).getD s.it 0 = _
    rw [← cit, getD_set_self _ (by rw [reduce_fold_length]; exact hit1),
      reduce_fold_value _ _ _ _ hit1, hsum, cA]
  · intro m hm
    show (List.set _ _ _)[m]? = _
    rw [List.getElem?_set_ne (by rw [cit]; exact Ne.symm hm), reduce_fold_frame _ _ _ _ _
      (by rw [cit]; exact hm), cA]


/-! ## Several rounds, and the loop -/

theorem getD_congr {l₁ l₂ : List ℚ} {j : Nat} (h : l₁[j]? = l₂[j]?) :
    l₁.getD j 0 = l₂.getD j 0 := by
  rw [List.getD_eq_getElem?_getD, List.getD_eq_getElem?_getD, h]

theorem seq_iterate_length (a : ℚ) (X Y : List ℚ) (h : X.length = Y.length) (k : Nat) :
    ((seq_update a X)^[k] Y).length = Y.length := by
  induction k with
  | zero => rfl
  | succ k ih =>
    rw [Function.iterate_succ_apply', seq_update_length a X _ (by omega), ih]

theorem seq_iterate_getD (a : ℚ) (X Y : List ℚ) (h : X.length = Y.length) (k j : Nat)
    (hj : j < Y.length) :
    ((seq_update a X)^[k] Y).getD j 0 = Y.getD j 0 + (k : ℚ) * a * X.getD j 0 := by
  induction k with
  | zero => simp
  | succ k ih =>
    have hl := seq_iterate_length a X Y h k
    rw [Function.iterate_succ_apply', seq_update_getD a X _ (by omega) j (by omega), ih]
    push_cast
    ring

theorem pointwise_iterate (a x y : ℚ) (k : Nat) :
    (fun v => v + a * x)^[k] y = y + (k : ℚ) * a * x := by
  induction k with
  | zero => simp
  | succ k ih =>
    rw [Function.iterate_succ_apply', ih]
    push_cast
    ring

theorem rounds_spec (mi p n : Nat) (a : ℚ) (sched : Nat → List Nat)
    (hs : ∀ r, (sched r).Perm (List.range n)) (s : Shared) (h1 : 1 ≤ n)
    (hX : s.X.length = p) (hY : s.Y.length = p) (hps : s.partial_sums.length = n)
    (k : Nat) (hk : s.it + k ≤ s.Y_avgs.length) :
    ((fun t => round mi p n a (sched t.it) t)^[k] s).X = s.X ∧
    ((fun t => round mi p n a (sched t.it) t)^[k] s).Y = (seq_update a s.X)^[k] s.Y ∧
    ((fun t => round mi p n a (sched t.it) t)^[k] s).partial_sums.length = n ∧
    ((fun t => round mi p n a (sched t.it) t)^[k] s).Y_avgs.length = s.Y_avgs.length ∧
    ((fun t => round mi p n a (sched t.it) t)^[k] s).it = s.it + k ∧
    (∀ m, m < k → ((fun t => round mi p n a (sched t.it) t)^[k] s).Y_avgs.getD (s.it + m) 0 =
      (s.Y_avgs.getD (s.it + m) 0 + ((seq_update a s.X)^[m + 1] s.Y).sum) / (p : ℚ)) ∧
    (∀ m, (m < s.it ∨ s.it + k ≤ m) →
      ((fun t => round mi p n a (sched t.it) t)^[k] s).Y_avgs[m]? = s.Y_avgs[m]?) := by
  induction k with
  | zero =>
    exact ⟨rfl, rfl, hps, rfl, rfl, fun m hm => absurd hm (by omega), fun m _ => rfl⟩
  | succ k ih =>
    obtain ⟨iX, iY, ips, iAl, iit, iAv, iAf⟩ := ih (by omega)
    rw [Function.iterate_succ_apply']
    generalize (fun t => round mi p n a (sched t.it) t)^[k] s = s1
      at iX iY ips iAl iit iAv iAf
    have hYl : s1.Y.length = p := by
      rw [iY, seq_iterate_length a s.X s.Y (by omega), hY]
    obtain ⟨rX, rY, rps, rAl, rit, rAv, rAf⟩ := round_spec mi p n a (sched s1.it)
      (hs s1.it) s1 h1 (by rw [iX]; exact hX) hYl ips (by rw [iit, iAl]; omega)
    show _ ∧ _ ∧ _ ∧ _ ∧ _ ∧ (∀ m, m < k + 1 →
      (round mi p n a (sched s1.it) s1).Y_avgs.getD (s.it + m) 0 = _) ∧ _
    refine ⟨by rw [rX, iX], ?_, rps, by rw [rAl, iAl], by rw [rit, iit]; omega, ?_, ?_⟩
    · rw [rY, iX, iY, Function.iterate_succ_apply']
    · intro m hm
      by_cases hmk : m = k
      · subst hmk
        rw [← iit, rAv, iX, iY, ← Function.iterate_succ_apply' (seq_update a s.X),
          getD_congr (iAf s1.it (by omega))]
      · rw [getD_congr (rAf (s.it + m) (by omega)), iAv m (by omega)]
    · intro m hm
      rw [rAf m (by omega), iAf m (by omega)]

theorem run_eq (mi p n : Nat) (a : ℚ) (sched : Nat → List Nat)
    (hs : ∀ r, (sched r).Perm (List.range n)) (h1 : 1 ≤ n) (fuel : Nat) (s : Shared)
    (hf : mi - s.it ≤ fuel) :
    run mi p n a sched fuel s =
      some ((fun t => round mi p n a (sched t.it) t)^[mi - s.it] s) := by
  induction fuel generalizing s with
  | zero =>
    unfold run
    rw [if_neg (by omega), show mi - s.it = 0 by omega]
    rfl
  | succ fuel ih =>
    unfold run
    by_cases hlt : s.it < mi
    · have hr := round_it mi p n a (sched s.it) (hs s.it) s h1
      rw [if_pos hlt, ih _ (by rw [hr]; omega), hr,
        ← Function.iterate_succ_apply (fun t => round mi p n a (sched t.it) t),
        show (mi - (s.it + 1)).succ = mi - s.it by omega]
    · rw [if_neg hlt, show mi - s.it = 0 by omega]
      rfl

/-- Everything the claims need about a complete run from the memory set up by `main`. -/
theorem run_init (mi p n : Nat) (a : ℚ) (sched : Nat → List Nat)
    (hs : ∀ r, (sched r).Perm (List.range n)) (X Y ps : List ℚ) (h1 : 1 ≤ n)
    (hX : X.length = p) (hY : Y.length = p) (hps : ps.length = n) :
    (∀ fuel, mi ≤ fuel →
      run mi p n a sched fuel (init mi X Y ps) =
        some ((fun t => round mi p n a (sched t.it) t)^[mi] (init mi X Y ps))) ∧
    (∀ k, k ≤ mi → ((fun t => round mi p n a (sched t.it) t)^[k] (init mi X Y ps)).Y
      = (seq_update a X)^[k] Y) ∧
    ((fun t => round mi p n a (sched t.it) t)^[mi] (init mi X Y ps)).X = X ∧
    ((fun t => round mi p n a (sched t.it) t)^[mi] (init mi X Y ps)).it = mi ∧
    ((fun t => round mi p n a (sched t.it) t)^[mi] (init mi X Y ps)).Y_avgs =
      (List.range mi).map (fun it => seq_mean p ((seq_update a X)^[it + 1] Y)) := by
  have hAl : (init mi X Y ps).Y_avgs.length = mi := List.length_replicate _ _
  have hall := fun k (hk : k ≤ mi) => rounds_spec mi p n a sched hs (init mi X Y ps) h1 hX hY
    hps k (by rw [hAl]; show 0 + k ≤ mi; omega)
  refine ⟨fun fuel hf => ?_, fun k hk => (hall k hk).2.1, (hall mi le_rfl).1, ?_, ?_⟩
  · exact run_eq mi p n a sched hs h1 fuel (init mi X Y ps) (by show mi - 0 ≤ fuel; omega)
  · rw [(hall mi le_rfl).2.2.2.2.1]
    show 0 + mi = mi
    omega
  · obtain ⟨_, _, _, rAl, _, rAv, _⟩ := hall mi le_rfl
    apply ext_getD
    · rw [rAl, hAl, List.length_map, List.length_range]
    · intro j hj
      rw [rAl, hAl] at hj
      have h3 := rAv j hj
      rw [show (init mi X Y ps).it + j = j from Nat.zero_add j] at h3
      rw [h3]
      have h0 : (init mi X Y ps).Y_avgs.getD j 0 = 0 := by
        show (List.replicate mi (0 : ℚ)).getD j 0 = 0
        rw [List.getD_eq_getElem _ _ (by rw [List.length_replicate]; exact hj)]
        simp
      rw [h0, zero_add, List.getD_eq_getElem _ _ (by
        rw [List.length_map, List.length_range]; exact hj)]
      simp [seq_mean, init]


/-! ## The claims about complete runs

In the statements below `sched r` is the order in which the workers take their turns
during iteration `r`; the only assumption on it is that every worker `0 .. n_threads - 1`
occurs exactly once. -/

/-- Claim C6: for `1 <= n_threads <= p` and any `max_iters >= 0` the run of the workers
completes (any fuel of at least `max_iters` rounds gives the same final memory), and in
the final memory every `Y[j]`, `j < p`, is the initial `Y[j]` after `max_iters`
applications of `y -> y + a * X[j]`, that is `Y0[j] + max_iters * a * X[j]`; with
`max_iters = 0` the vector `Y` is the initial one. -/
theorem final_Y_updated_each_iteration (p n mi : Nat) (a : ℚ) (sched : Nat → List Nat)
    (X Y ps : List ℚ) (h1 : 1 ≤ n) (_h2 : n ≤ p)
    (hs : ∀ r, (sched r).Perm (List.range n))
    (hX : X.length = p) (hY : Y.length = p) (hps : ps.length = n) :
    ∃ s, (∀ fuel, mi ≤ fuel → run mi p n a sched fuel (init mi X Y ps) = some s) ∧
      s.Y.length = p ∧
      (∀ j, j < p →
        s.Y.getD j 0 = (fun y => y + a * X.getD j 0)^[mi] (Y.getD j 0) ∧
        s.Y.getD j 0 = Y.getD j 0 + (mi : ℚ) * a * X.getD j 0) ∧
      (mi = 0 → s.Y = Y) := by
  obtain ⟨hrun, hYk, _, _, _⟩ := run_init mi p n a sched hs X Y ps h1 hX hY hps
  refine ⟨_, hrun, ?_, fun j hj => ?_, fun h0 => ?_⟩
  · rw [hYk mi le_rfl, seq_iterate_length a X Y (by omega), hY]
  · rw [hYk mi le_rfl, pointwise_iterate,
      seq_iterate_getD a X Y (by omega) mi j (by omega)]
    exact ⟨rfl, rfl⟩
  · subst h0
    rfl

/-- Concrete instance: `p = 4`, two workers, `a = 2`, `X = [1,1,1,1]`, `Y = [0,0,0,0]`,
one iteration, worker 1 taking its turn before worker 0; the run ends with
`Y = [2,2,2,2]`. -/
theorem final_Y_updated_each_iteration_witness :
    (∃ s, (∀ fuel, 1 ≤ fuel →
        run 1 4 2 2 (fun _ => [1, 0]) fuel (init 1 [1, 1, 1, 1] [0, 0, 0, 0] [0, 0])
          = some s) ∧
      s.Y.length = 4 ∧
      (∀ j, j < 4 →
        s.Y.getD j 0 =
          (fun y => y + 2 * [(1 : ℚ), 1, 1, 1].getD j 0)^[1] ([(0 : ℚ), 0, 0, 0].getD j 0) ∧
        s.Y.getD j 0 =
          [(0 : ℚ), 0, 0, 0].getD j 0 + ((1 : Nat) : ℚ) * 2 * [(1 : ℚ), 1, 1, 1].getD j 0) ∧
      (1 = 0 → s.Y = [0, 0, 0, 0])) ∧
    (run 1 4 2 2 (fun _ => [1, 0]) 1 (init 1 [1, 1, 1, 1] [0, 0, 0, 0] [0, 0])).map
      (fun s => s.Y) = some [2, 2, 2, 2] :=
  ⟨final_Y_updated_each_iteration 4 2 1 2 (fun _ => [1, 0]) [1, 1, 1, 1] [0, 0, 0, 0] [0, 0]
    (by decide) (by decide) (fun _ => List.Perm.swap 0 1 []) rfl rfl rfl, by
    simp [run, round, init, compute, reduce, main_args, start, end_, chunk_size, update_step,
      List.range_succ, List.range'_succ]⟩

/-- Claim C4: for `1 <= n_threads <= p`, `max_iters >= 1` and a zero-initialised average
array, the run in barrier order completes, and every entry `Y_avgs[it]`, `it < max_iters`,
of the final memory is the sum over `j < p` of `Y[j]` as it stands right after iteration
`it` (the memory after `it + 1` rounds), divided by `p`; that intermediate `Y` is the
vector an independent sequential recomputation gives after `it + 1` updates. -/
theorem averages_are_means (p n mi : Nat) (a : ℚ) (sched : Nat → List Nat)
    (X Y ps : List ℚ) (h1 : 1 ≤ n) (_h2 : n ≤ p) (_hmi : 1 ≤ mi)
    (hs : ∀ r, (sched r).Perm (List.range n))
    (hX : X.length = p) (hY : Y.length = p) (hps : ps.length = n) :
    ∃ s, (∀ fuel, mi ≤ fuel → run mi p n a sched fuel (init mi X Y ps) = some s) ∧
      s.Y_avgs.length = mi ∧
      ∀ it, it < mi →
        s.Y_avgs.getD it 0 =
          (∑ j in Finset.range p,
            (after_rounds mi p n a sched (it + 1) (init mi X Y ps)).Y.getD j 0) / (p : ℚ) ∧
        (after_rounds mi p n a sched (it + 1) (init mi X Y ps)).Y
          = (seq_update a X)^[it + 1] Y := by
  obtain ⟨hrun, hYk, _, _, hA⟩ := run_init mi p n a sched hs X Y ps h1 hX hY hps
  refine ⟨_, hrun, ?_, fun it hit => ⟨?_, hYk (it + 1) (by omega)⟩⟩
  · rw [hA, List.length_map, List.length_range]
  · unfold after_rounds
    rw [hA, List.getD_eq_getElem _ _ (by rw [List.length_map, List.length_range]; exact hit),
      List.getElem_map, List.getElem_range, hYk (it + 1) (by omega)]
    unfold seq_mean
    rw [sum_eq_sum_getD, seq_iterate_length a X Y (by omega), hY]

/-- Concrete instance: `p = 4`, two workers, `a = 2`, `X = [1,1,1,1]`,
`Y = [0,0,0,0]`, two iterations, workers in creation order; the run ends with
`Y_avgs = [2, 4]`. -/
theorem averages_are_means_witness :
    (∃ s, (∀ fuel, 2 ≤ fuel →
        run 2 4 2 2 (fun _ => [0, 1]) fuel (init 2 [1, 1, 1, 1] [0, 0, 0, 0] [0, 0])
          = some s) ∧
      s.Y_avgs.length = 2 ∧
      ∀ it, it < 2 →
        s.Y_avgs.getD it 0 =
          (∑ j in Finset.range 4,
            (after_rounds 2 4 2 2 (fun _ => [0, 1]) (it + 1)
              (init 2 [1, 1, 1, 1] [0, 0, 0, 0] [0, 0])).Y.getD j 0) / ((4 : Nat) : ℚ) ∧
        (after_rounds 2 4 2 2 (fun _ => [0, 1]) (it + 1)
            (init 2 [1, 1, 1, 1] [0, 0, 0, 0] [0, 0])).Y
          = (seq_update 2 [1, 1, 1, 1])^[it + 1] [0, 0, 0, 0]) ∧
    (run 2 4 2 2 (fun _ => [0, 1]) 2 (init 2 [1, 1, 1, 1] [0, 0, 0, 0] [0, 0])).map
      (fun s => s.Y_avgs) = some [2, 4] :=
  ⟨averages_are_means 4 2 2 2 (fun _ => [0, 1]) [1, 1, 1, 1] [0, 0, 0, 0] [0, 0]
    (by decide) (by decide) (by decide) (fun _ => List.Perm.refl _) rfl rfl rfl, by
    simp [run, round, init, compute, reduce, main_args, start, end_, chunk_size, update_step,
      List.range_succ, List.range'_succ]
    norm_num⟩

/-- Claim C5: for `p >= 1`, `k >= 1` dividing `p` and `max_iters >= 1`, the run with
`n_threads = k` and the run with `n_threads = 1` on the same `a`, `X`, `Y` both complete
and end with the same vector `Y` and the same average array `Y_avgs`. Over exact
rationals the proof does not use that `k` divides `p`. -/
theorem k_threads_equal_one_thread (p k mi : Nat) (a : ℚ) (schedk sched1 : Nat → List Nat)
    (X Y psk ps1 : List ℚ) (_hp : 1 ≤ p) (hk : 1 ≤ k) (_hd : k ∣ p) (_hmi : 1 ≤ mi)
    (hsk : ∀ r, (schedk r).Perm (List.range k)) (hs1 : ∀ r, (sched1 r).Perm (List.range 1))
    (hX : X.length = p) (hY : Y.length = p) (hpsk : psk.length = k)
    (hps1 : ps1.length = 1) :
    ∃ sk s1, (∀ fuel, mi ≤ fuel → run mi p k a schedk fuel (init mi X Y psk) = some sk) ∧
      (∀ fuel, mi ≤ fuel → run mi p 1 a sched1 fuel (init mi X Y ps1) = some s1) ∧
      sk.Y = s1.Y ∧ sk.Y_avgs = s1.Y_avgs := by
  obtain ⟨krun, kY, _, _, kA⟩ := run_init mi p k a schedk hsk X Y psk hk hX hY hpsk
  obtain ⟨orun, oY, _, _, oA⟩ := run_init mi p 1 a sched1 hs1 X Y ps1 le_rfl hX hY hps1
  exact ⟨_, _, krun, orun, by rw [kY mi le_rfl, oY mi le_rfl], by rw [kA, oA]⟩

/-- Concrete instance: `p = 4`, `k = 2`, two iterations. -/
theorem k_threads_equal_one_thread_witness :
    ∃ sk s1, (∀ fuel, 2 ≤ fuel →
        run 2 4 2 3 (fun _ => [1, 0]) fuel (init 2 [1, 2, 3, 4] [5, 6, 7, 8] [0, 0])
          = some sk) ∧
      (∀ fuel, 2 ≤ fuel →
        run 2 4 1 3 (fun _ => [0]) fuel (init 2 [1, 2, 3, 4] [5, 6, 7, 8] [0]) = some s1) ∧
      sk.Y = s1.Y ∧ sk.Y_avgs = s1.Y_avgs :=
  k_threads_equal_one_thread 4 2 2 3 (fun _ => [1, 0]) (fun _ => [0]) [1, 2, 3, 4]
    [5, 6, 7, 8] [0, 0] [0] (by decide) (by decide) (by decide) (by decide)
    (fun _ => List.Perm.swap 0 1 []) (fun _ => List.Perm.refl _) rfl rfl rfl rfl

/-! ## The frame of one iteration of one worker -/

theorem compute_frame (w : Argumentos) (s : Shared) :
    (compute w s).X = s.X ∧ (compute w s).Y_avgs = s.Y_avgs ∧ (compute w s).it = s.it ∧
    (compute w s).Y.length = s.Y.length ∧
    (compute w s).partial_sums.length = s.partial_sums.length ∧
    (∀ j, ¬ (start w.p w.n_threads w.id ≤ j ∧ j < end_ w.p w.n_threads w.id) →
      (compute w s).Y[j]? = s.Y[j]?) ∧
    (∀ k, k ≠ w.id → (compute w s).partial_sums[k]? = s.partial_sums[k]?) := by
  refine ⟨rfl, rfl, rfl, compute_Y_length w s, ?_, fun j hj => ?_, fun k hk => ?_⟩
  · show (List.set _ _ _).length = _
    rw [List.length_set]
  · exact update_fold_frame _ _ _ _ _ _ j (by omega)
  · show (List.set _ _ _)[k]? = _
    exact List.getElem?_set_ne (Ne.symm hk)

theorem reduce_frame (w : Argumentos) (s : Shared) :
    (reduce w s).X = s.X ∧ (reduce w s).Y = s.Y ∧
    (reduce w s).partial_sums = s.partial_sums ∧
    (reduce w s).Y_avgs.length = s.Y_avgs.length ∧
    (∀ m, m ≠ s.it → (reduce w s).Y_avgs[m]? = s.Y_avgs[m]?) ∧
    (w.id = 0 → (reduce w s).it = s.it + 1) ∧
    (w.id ≠ 0 → (reduce w s).Y_avgs = s.Y_avgs ∧ (reduce w s).it = s.it) := by
  by_cases h : w.id = 0
  · have hr : reduce w s = { s with
        Y_avgs := ((List.range w.n_threads).foldl
          (fun B i => B.set s.it (B.getD s.it 0 + s.partial_sums.getD i 0)) s.Y_avgs).set
            s.it (((List.range w.n_threads).foldl
              (fun B i => B.set s.it (B.getD s.it 0 + s.partial_sums.getD i 0))
                s.Y_avgs).getD s.it 0 / (w.p : ℚ)),
        it := s.it + 1 } := by
      unfold reduce
      rw [if_pos h]
    rw [hr]
    refine ⟨rfl, rfl, rfl, ?_, fun m hm => ?_, fun _ => rfl, fun h' => absurd h h'⟩
    · show (List.set _ _ _).length = _
      rw [List.length_set, reduce_fold_length]
    · show (List.set _ _ _)[m]? = _
      rw [List.getElem?_set_ne (Ne.symm hm), reduce_fold_frame _ _ _ _ _ hm]
  · rw [reduce_of_ne_zero w s h]
    exact ⟨rfl, rfl, rfl, rfl, fun _ _ => rfl, fun h' => absurd h' h, fun _ => ⟨rfl, rfl⟩⟩

/-- Claim C7: one iteration of the loop body run by the worker with record `w` changes, of
the shared memory, only the cells `Y[j]` with `start <= j < end` of that worker, the cell
`partial_sums[id]` and, when `id = 0`, the cell `Y_avgs[it]` and the counter (which becomes
`it + 1`). `X`, the lengths of the arrays, every other cell of `Y`, of `partial_sums` and of
`Y_avgs` keep their contents, and a worker with `id != 0` leaves `Y_avgs` and the counter
as they were. The record `w`, and with it `a`, is an input only. No assumption on
`n_threads`, `p`, `id` or the counter is needed, so this holds in particular for
`1 <= n_threads <= p`, `id < n_threads` and `it < max_iters`. -/
theorem loop_body_frame (w : Argumentos) (s : Shared) :
    (loop_body w s).X = s.X ∧
    (loop_body w s).Y.length = s.Y.length ∧
    (loop_body w s).partial_sums.length = s.partial_sums.length ∧
    (loop_body w s).Y_avgs.length = s.Y_avgs.length ∧
    (∀ j, ¬ (start w.p w.n_threads w.id ≤ j ∧ j < end_ w.p w.n_threads w.id) →
      (loop_body w s).Y[j]? = s.Y[j]?) ∧
    (∀ k, k ≠ w.id → (loop_body w s).partial_sums[k]? = s.partial_sums[k]?) ∧
    (∀ m, m ≠ s.it → (loop_body w s).Y_avgs[m]? = s.Y_avgs[m]?) ∧
    (w.id = 0 → (loop_body w s).it = s.it + 1) ∧
    (w.id ≠ 0 → (loop_body w s).Y_avgs = s.Y_avgs ∧ (loop_body w s).it = s.it) := by
  obtain ⟨cX, cA, cit, cYl, cpl, cYf, cpf⟩ := compute_frame w s
  obtain ⟨rX, rY, rps, rAl, rAf, rit, rne⟩ := reduce_frame w (compute w s)
  unfold loop_body
  refine ⟨by rw [rX, cX], by rw [rY, cYl], by rw [rps, cpl], by rw [rAl, cA],
    fun j hj => by rw [rY, cYf j hj], fun k hk => by rw [rps, cpf k hk],
    fun m hm => by rw [rAf m (by rw [cit]; exact hm), cA],
    fun h0 => by rw [rit h0, cit], fun hne => ?_⟩
  obtain ⟨e1, e2⟩ := rne hne
  exact ⟨by rw [e1, cA], by rw [e2, cit]⟩

end Saxpy

namespace SaxpyCarlos

open Saxpy (getD_set_self getD_set_ne getD_congr)

/-! ## The worker of saxpy_carlos.c -/

theorem inner_loop_done (sup fuel : Nat) (g : Globals) (h : sup ≤ g.i) :
    inner_loop sup fuel g = some g := by
  cases fuel with
  | zero => unfold inner_loop; rw [if_neg (by omega)]
  | succ fuel => unfold inner_loop; rw [if_neg (by omega)]

theorem inner_loop_spec (sup : Nat) (fuel : Nat) (g : Globals) (hi : g.i ≤ sup)
    (hf : sup - g.i ≤ fuel) (hY : sup ≤ g.Y.length) (hit : g.it < g.Y_avgs.length) :
    ∃ g1, inner_loop sup fuel g = some g1 ∧
      g1.p = g.p ∧ g1.max_iters = g.max_iters ∧ g1.i = sup ∧ g1.it = g.it ∧ g1.X = g.X ∧
      g1.a = g.a ∧ g1.Y.length = g.Y.length ∧ g1.Y_avgs.length = g.Y_avgs.length ∧
      (∀ j, g1.Y.getD j 0 =
        if g.i ≤ j ∧ j < sup then g.Y.getD j 0 + g.a * g.X.getD j 0 else g.Y.getD j 0) ∧
      g1.Y_avgs.getD g.it 0 = g.Y_avgs.getD g.it 0 +
        ∑ j in Finset.Ico g.i sup, (g.Y.getD j 0 + g.a * g.X.getD j 0) ∧
      (∀ m, m ≠ g.it → g1.Y_avgs[m]? = g.Y_avgs[m]?) := by
  induction fuel generalizing g with
  | zero =>
    have : g.i = sup := by omega
    refine ⟨g, inner_loop_done sup 0 g (by omega), rfl, rfl, this, rfl, rfl, rfl, rfl, rfl,
      fun j => by rw [if_neg (by omega)], ?_, fun _ _ => rfl⟩
    rw [this, Finset.Ico_self, Finset.sum_empty, add_zero]
  | succ fuel ih =>
    by_cases hlt : g.i < sup
    · have hiY : g.i < g.Y.length := by omega
      obtain ⟨g1, e, hp, hmi, hi1, hit1, hX1, ha1, hYl, hAl, hYv, hAv, hAf⟩ :=
        ih (inner_step g) (by show g.i + 1 ≤ sup; omega) (by show sup - (g.i + 1) ≤ fuel; omega)
          (by show sup ≤ (List.set _ _ _).length; rw [List.length_set]; exact hY)
          (by show g.it < (List.set _ _ _).length; rw [List.length_set]; exact hit)
      have hs1 : (inner_step g).Y = g.Y.set g.i (g.Y.getD g.i 0 + g.a * g.X.getD g.i 0) := rfl
      have hs2 : (inner_step g).Y_avgs =
          g.Y_avgs.set g.it (g.Y_avgs.getD g.it 0 + (g.Y.getD g.i 0 + g.a * g.X.getD g.i 0)) := by
        show List.set _ _ (_ + (List.set _ _ _).getD g.i 0) = _
        rw [getD_set_self _ hiY]
      have hs3 : (inner_step g).i = g.i + 1 := rfl
      have hs4 : (inner_step g).it = g.it := rfl
      have hs5 : (inner_step g).X = g.X := rfl
      have hs6 : (inner_step g).a = g.a := rfl
      refine ⟨g1, ?_, hp, hmi, hi1, hit1, hX1, ha1, ?_, ?_, fun j => ?_, ?_, fun m hm => ?_⟩
      · unfold inner_loop
        rw [if_pos hlt]
        exact e
      · rw [hYl, hs1, List.length_set]
      · rw [hAl, hs2, List.length_set]
      · rw [hYv j, hs1, hs3, hs5, hs6]
        by_cases hj : j = g.i
        · subst hj
          rw [if_neg (by omega), if_pos ⟨le_rfl, hlt⟩, getD_set_self _ hiY]
        · rw [getD_set_ne _ (Ne.symm hj)]
          by_cases hr : g.i + 1 ≤ j ∧ j < sup
          · rw [if_pos hr, if_pos (by omega)]
          · rw [if_neg hr, if_neg (by omega)]
      · rw [← hs4, hAv, hs4, hs2, getD_set_self _ hit, hs1, hs3, hs5, hs6,
          Finset.sum_eq_sum_Ico_succ_bot hlt]
        have hs : ∑ j in Finset.Ico (g.i + 1) sup,
              ((g.Y.set g.i (g.Y.getD g.i 0 + g.a * g.X.getD g.i 0)).getD j 0
                + g.a * g.X.getD j 0) =
            ∑ j in Finset.Ico (g.i + 1) sup, (g.Y.getD j 0 + g.a * g.X.getD j 0) := by
          apply Finset.sum_congr rfl
          intro j hj
          rw [Finset.mem_Ico] at hj
          rw [getD_set_ne _ (by omega)]
        rw [hs]
        ring
      · rw [hAf m (by rw [hs4]; exact hm), hs2, List.getElem?_set_ne (Ne.symm hm)]
    · have : g.i = sup := by omega
      refine ⟨g, inner_loop_done sup _ g (by omega), rfl, rfl, this, rfl, rfl, rfl, rfl, rfl,
        fun j => by rw [if_neg (by omega)], ?_, fun _ _ => rfl⟩
      rw [this, Finset.Ico_self, Finset.sum_empty, add_zero]


theorem outer_loop_rest (sup fuel_i fuel : Nat) (g : Globals) (hi : sup ≤ g.i)
    (hA : g.max_iters ≤ g.Y_avgs.length) (hf : g.max_iters - g.it ≤ fuel) :
    ∃ g1, outer_loop sup fuel_i fuel g = some g1 ∧ g1.Y = g.Y ∧ g1.X = g.X ∧
      g1.Y_avgs.length = g.Y_avgs.length ∧
      (∀ m, g1.Y_avgs.getD m 0 =
        if g.it ≤ m ∧ m < g.max_iters then g.Y_avgs.getD m 0 / (g.p : ℚ)
        else g.Y_avgs.getD m 0) := by
  induction fuel generalizing g with
  | zero =>
    refine ⟨g, ?_, rfl, rfl, rfl, fun m => by rw [if_neg (by omega)]⟩
    unfold outer_loop
    rw [if_neg (by omega)]
  | succ fuel ih =>
    by_cases hlt : g.it < g.max_iters
    · obtain ⟨g1, e, hY, hX, hAl, hAv⟩ := ih (outer_tail g) hi
        (by show g.max_iters ≤ (List.set _ _ _).length; rw [List.length_set]; exact hA)
        (by show g.max_iters - (g.it + 1) ≤ fuel; omega)
      have ht : (outer_tail g).Y_avgs = g.Y_avgs.set g.it (g.Y_avgs.getD g.it 0 / (g.p : ℚ)) :=
        rfl
      refine ⟨g1, ?_, hY, hX, by rw [hAl, ht, List.length_set], fun m => ?_⟩
      · unfold outer_loop
        rw [if_pos hlt, inner_loop_done sup fuel_i g hi]
        exact e
      · rw [hAv m, ht]
        show (if g.it + 1 ≤ m ∧ m < g.max_iters then _ / (g.p : ℚ) else _) = _
        by_cases hm : m = g.it
        · subst hm
          rw [if_neg (by omega), if_pos ⟨le_rfl, hlt⟩, getD_set_self _ (by omega)]
        · rw [getD_set_ne _ (Ne.symm hm)]
          by_cases hr : g.it + 1 ≤ m ∧ m < g.max_iters
          · rw [if_pos hr, if_pos (by omega)]
          · rw [if_neg hr, if_neg (by omega)]
    · refine ⟨g, ?_, rfl, rfl, rfl, fun m => by rw [if_neg (by omega)]⟩
      unfold outer_loop
      rw [if_neg hlt]

/-- Claim C9: a single call of the worker of `saxpy_carlos.c` on `[lo, sup)` with
`lo <= sup <= p` and `max_iters >= 1` returns (with any fuel of at least `sup - lo` inner
and `max_iters` outer steps), and at its return every `Y[j]` with `lo <= j < sup` is
`Y0[j] + a * X[j]`, whatever `max_iters` is, the cells of `Y` outside the range are
untouched, `Y_avgs[0]` is its initial value plus the updated range, divided by `p`, and
every `Y_avgs[it]` with `1 <= it < max_iters` is its initial value divided by `p`: the
global `i` stays at `sup` after the first pass. (`main` asserts `p > 0`; for `p = 0`, which
forces `lo = sup = 0`, the quotients are the rational convention.) -/
theorem carlos_updates_in_first_iteration_only (g : Globals) (lo sup : Nat)
    (hls : lo ≤ sup) (hsp : sup ≤ g.p) (hmi : 1 ≤ g.max_iters) (_hX : g.X.length = g.p)
    (hY : g.Y.length = g.p) (hA : g.Y_avgs.length = g.max_iters)
    (fuel : Nat) (hf1 : sup - lo ≤ fuel) (hf2 : g.max_iters ≤ fuel) :
    ∃ g1, saxpy lo sup fuel g = some g1 ∧
      (∀ j, lo ≤ j → j < sup → g1.Y.getD j 0 = g.Y.getD j 0 + g.a * g.X.getD j 0) ∧
      (∀ j, ¬ (lo ≤ j ∧ j < sup) → g1.Y.getD j 0 = g.Y.getD j 0) ∧
      g1.Y_avgs.getD 0 0 = (g.Y_avgs.getD 0 0 +
        ∑ j in Finset.Ico lo sup, (g.Y.getD j 0 + g.a * g.X.getD j 0)) / (g.p : ℚ) ∧
      (∀ it, 1 ≤ it → it < g.max_iters →
        g1.Y_avgs.getD it 0 = g.Y_avgs.getD it 0 / (g.p : ℚ)) ∧
      g1.Y.length = g.Y.length ∧ g1.Y_avgs.length = g.Y_avgs.length := by
  obtain ⟨f, rfl⟩ : ∃ f, fuel = f + 1 := ⟨fuel - 1, by omega⟩
  obtain ⟨g1, e1, hp1, hmi1, hi1, hit1, hX1, _, hYl1, hAl1, hYv1, hAv1, hAf1⟩ :=
    inner_loop_spec sup (f + 1) { g with i := lo, it := 0 } hls hf1
      (by show sup ≤ g.Y.length; omega) (by show 0 < g.Y_avgs.length; omega)
  dsimp only at hp1 hmi1 hit1 hX1 hYl1 hAl1 hYv1 hAv1 hAf1
  obtain ⟨g2, e2, hY2, _, hAl2, hAv2⟩ := outer_loop_rest sup (f + 1) f (outer_tail g1)
    (by show sup ≤ g1.i; omega)
    (by show g1.max_iters ≤ (List.set _ _ _).length
        rw [List.length_set, hAl1, hmi1]; exact le_of_eq hA.symm)
    (by show g1.max_iters - (g1.it + 1) ≤ f; rw [hmi1]; show g.max_iters - _ ≤ f; omega)
  have ht : (outer_tail g1).Y_avgs =
      g1.Y_avgs.set 0 (g1.Y_avgs.getD 0 0 / (g.p : ℚ)) := by
    show List.set _ g1.it (_ / (g1.p : ℚ)) = _
    rw [hit1, hp1]
  have h0 : 0 < g1.Y_avgs.length := by rw [hAl1]; omega
  replace hY2 : g2.Y = g1.Y := hY2
  refine ⟨g2, ?_, fun j h1 h2 => ?_, fun j hj => ?_, ?_, fun it h1 h2 => ?_, ?_, ?_⟩
  · unfold saxpy outer_loop
    rw [if_pos (by show 0 < g.max_iters; omega), e1]
    exact e2
  · rw [hY2, hYv1 j]
    exact if_pos ⟨h1, h2⟩
  · rw [hY2, hYv1 j]
    exact if_neg hj
  · rw [hAv2 0, ht, getD_set_self _ h0]
    have : (outer_tail g1).it = 1 := by show g1.it + 1 = 1; rw [hit1]
    rw [this, if_neg (by omega)]
    exact congrArg (· / (g.p : ℚ)) hAv1
  · rw [hAv2 it, ht, getD_set_ne _ (by omega)]
    have h3 : (outer_tail g1).it = 1 := by show g1.it + 1 = 1; rw [hit1]
    have h4 : (outer_tail g1).max_iters = g.max_iters := hmi1
    have h5 : (outer_tail g1).p = g.p := hp1
    rw [h3, h4, h5, if_pos ⟨h1, h2⟩, getD_congr (hAf1 it (by show it ≠ 0; omega))]
  · rw [hY2]
    exact hYl1
  · rw [hAl2, ht, List.length_set]
    exact hAl1

/-- Concrete instance: `p = 4`, range `[0, 2)`, three iterations. -/
theorem carlos_updates_in_first_iteration_only_witness :
    ∃ g1, saxpy 0 2 3 ⟨4, 3, 0, 0, [1, 1, 1, 1], 2, [0, 0, 0, 0], [0, 8, 16]⟩ = some g1 ∧
      (∀ j, 0 ≤ j → j < 2 → g1.Y.getD j 0 =
        [(0 : ℚ), 0, 0, 0].getD j 0 + 2 * [(1 : ℚ), 1, 1, 1].getD j 0) ∧
      (∀ j, ¬ (0 ≤ j ∧ j < 2) → g1.Y.getD j 0 = [(0 : ℚ), 0, 0, 0].getD j 0) ∧
      g1.Y_avgs.getD 0 0 = ([(0 : ℚ), 8, 16].getD 0 0 +
        ∑ j in Finset.Ico 0 2, ([(0 : ℚ), 0, 0, 0].getD j 0 + 2 * [(1 : ℚ), 1, 1, 1].getD j 0))
          / ((4 : Nat) : ℚ) ∧
      (∀ it, 1 ≤ it → it < 3 →
        g1.Y_avgs.getD it 0 = [(0 : ℚ), 8, 16].getD it 0 / ((4 : Nat) : ℚ)) ∧
      g1.Y.length = 4 ∧ g1.Y_avgs.length = 3 :=
  carlos_updates_in_first_iteration_only ⟨4, 3, 0, 0, [1, 1, 1, 1], 2, [0, 0, 0, 0], [0, 8, 16]⟩
    0 2 (by decide) (by decide) (by decide) rfl rfl rfl 3 (by decide) (by decide)

end SaxpyCarlos

namespace Saxpy2

open Saxpy (getD_set_self getD_set_ne getD_congr)

/-! ## The worker and `main` of saxpy2.c -/

theorem inner_step_eq (a : ℚ) (X : List ℚ) (it : Nat) (Y v : List ℚ) (j : Nat) :
    inner_step a X it (Y, v) j =
      (Y.set j (Y.getD j 0 + a * X.getD j 0),
        v.set it (v.getD it 0 + (Y.set j (Y.getD j 0 + a * X.getD j 0)).getD j 0)) := rfl

theorem inner_fold_spec (a : ℚ) (X : List ℚ) (it k lo : Nat) (Y v : List ℚ)
    (hb : lo + k ≤ Y.length) (hit : it < v.length) :
    ((List.range' lo k).foldl (inner_step a X it) (Y, v)).1.length = Y.length ∧
    ((List.range' lo k).foldl (inner_step a X it) (Y, v)).2.length = v.length ∧
    (∀ j, ((List.range' lo k).foldl (inner_step a X it) (Y, v)).1.getD j 0 =
      if lo ≤ j ∧ j < lo + k then Y.getD j 0 + a * X.getD j 0 else Y.getD j 0) ∧
    ((List.range' lo k).foldl (inner_step a X it) (Y, v)).2.getD it 0 =
      v.getD it 0 + ∑ j in Finset.Ico lo (lo + k), (Y.getD j 0 + a * X.getD j 0) ∧
    (∀ m, m ≠ it →
      ((List.range' lo k).foldl (inner_step a X it) (Y, v)).2[m]? = v[m]?) := by
  induction k generalizing lo Y v with
  | zero =>
    refine ⟨rfl, rfl, fun j => ?_, by simp, fun _ _ => rfl⟩
    rw [if_neg (by omega)]
    rfl
  | succ k ih =>
    have hlo : lo < Y.length := by omega
    rw [List.range'_succ, List.foldl_cons, inner_step_eq, getD_set_self _ hlo]
    obtain ⟨h1, h2, h3, h4, h5⟩ := ih (lo + 1) (Y.set lo (Y.getD lo 0 + a * X.getD lo 0))
      (v.set it (v.getD it 0 + (Y.getD lo 0 + a * X.getD lo 0)))
      (by rw [List.length_set]; omega) (by rw [List.length_set]; exact hit)
    refine ⟨by rw [h1, List.length_set], by rw [h2, List.length_set], fun j => ?_, ?_,
      fun m hm => ?_⟩
    · rw [h3 j]
      by_cases hj : j = lo
      · subst hj
        rw [if_neg (by omega), if_pos (by omega), getD_set_self _ hlo]
      · rw [getD_set_ne _ (Ne.symm hj)]
        by_cases hr : lo + 1 ≤ j ∧ j < lo + 1 + k
        · rw [if_pos hr, if_pos (by omega)]
        · rw [if_neg hr, if_neg (by omega)]
    · rw [h4, getD_set_self _ hit,
        Finset.sum_eq_sum_Ico_succ_bot (show lo < lo + (k + 1) by omega)]
      have hs : ∑ j in Finset.Ico (lo + 1) (lo + 1 + k),
            ((Y.set lo (Y.getD lo 0 + a * X.getD lo 0)).getD j 0 + a * X.getD j 0) =
          ∑ j in Finset.Ico (lo + 1) (lo + (k + 1)), (Y.getD j 0 + a * X.getD j 0) := by
        rw [show lo + 1 + k = lo + (k + 1) by omega]
        apply Finset.sum_congr rfl
        intro j hj
        rw [Finset.mem_Ico] at hj
        rw [getD_set_ne _ (by omega)]
      rw [hs]
      ring
    · rw [h5 m hm, List.getElem?_set_ne (Ne.symm hm)]

theorem iteration_spec (a : ℚ) (X : List ℚ) (lo sup it : Nat) (Y v : List ℚ)
    (hls : lo ≤ sup) (hb : sup ≤ Y.length) (hit : it < v.length) :
    (iteration a X lo sup (Y, v) it).1.length = Y.length ∧
    (iteration a X lo sup (Y, v) it).2.length = v.length ∧
    (∀ j, (iteration a X lo sup (Y, v) it).1.getD j 0 =
      if lo ≤ j ∧ j < sup then Y.getD j 0 + a * X.getD j 0 else Y.getD j 0) ∧
    (iteration a X lo sup (Y, v) it).2.getD it 0 =
      (v.getD it 0 + ∑ j in Finset.Ico lo sup, (Y.getD j 0 + a * X.getD j 0))
        / (((sup - lo : Nat) : ℚ)) ∧
    (∀ m, m ≠ it → (iteration a X lo sup (Y, v) it).2[m]? = v[m]?) := by
  obtain ⟨h1, h2, h3, h4, h5⟩ := inner_fold_spec a X it (sup - lo) lo Y v (by omega) hit
  rw [show lo + (sup - lo) = sup by omega] at h3 h4
  have hc : ((((sup : Int) - (lo : Int) : Int)) : ℚ) = ((sup - lo : Nat) : ℚ) := by
    rw [← Int.ofNat_sub hls]
    rfl
  refine ⟨h1, ?_, h3, ?_, fun m hm => ?_⟩
  · show (List.set _ _ _).length = _
    rw [List.length_set, h2]
  · show (List.set _ _ _).getD it 0 = _
    rw [getD_set_self _ (by rw [h2]; exact hit), h4, hc]
  · show (List.set _ _ _)[m]? = _
    rw [List.getElem?_set_ne (Ne.symm hm), h5 m hm]

theorem saxpy_spec (a : ℚ) (X : List ℚ) (lo sup : Nat) (Y v : List ℚ) (hls : lo ≤ sup)
    (hb : sup ≤ Y.length) (mi : Nat) (hmi : mi ≤ v.length) :
    (saxpy mi a X lo sup (Y, v)).1.length = Y.length ∧
    (saxpy mi a X lo sup (Y, v)).2.length = v.length ∧
    (∀ j, (saxpy mi a X lo sup (Y, v)).1.getD j 0 =
      if lo ≤ j ∧ j < sup then Y.getD j 0 + (mi : ℚ) * a * X.getD j 0 else Y.getD j 0) ∧
    (∀ it, it < mi → (saxpy mi a X lo sup (Y, v)).2.getD it 0 =
      (v.getD it 0 + ∑ j in Finset.Ico lo sup, (Y.getD j 0 + ((it + 1 : Nat) : ℚ) * a * X.getD j 0))
        / (((sup - lo : Nat) : ℚ))) ∧
    (∀ m, mi ≤ m → (saxpy mi a X lo sup (Y, v)).2[m]? = v[m]?) := by
  induction mi with
  | zero =>
    refine ⟨rfl, rfl, fun j => ?_, fun it h => absurd h (by omega), fun _ _ => rfl⟩
    show Y.getD j 0 = _
    split <;> simp
  | succ mi ih =>
    obtain ⟨i1, i2, i3, i4, i5⟩ := ih (by omega)
    have hs : saxpy (mi + 1) a X lo sup (Y, v) =
        iteration a X lo sup (saxpy mi a X lo sup (Y, v)) mi := by
      unfold saxpy
      rw [List.range_succ, List.foldl_append, List.foldl_cons, List.foldl_nil]
    rw [hs]
    generalize saxpy mi a X lo sup (Y, v) = st at i1 i2 i3 i4 i5
    obtain ⟨Y1, v1⟩ := st
    dsimp only at i1 i2 i3 i4 i5
    obtain ⟨h1, h2, h3, h4, h5⟩ := iteration_spec a X lo sup mi Y1 v1 hls (by omega) (by omega)
    refine ⟨by rw [h1, i1], by rw [h2, i2], fun j => ?_, fun it hit => ?_, fun m hm => ?_⟩
    · by_cases hr : lo ≤ j ∧ j < sup
      · rw [h3 j, if_pos hr, i3 j, if_pos hr, if_pos hr]
        push_cast
        ring
      · rw [h3 j, if_neg hr, i3 j, if_neg hr, if_neg hr]
    · by_cases he : it = mi
      · subst he
        rw [h4, getD_congr (i5 it le_rfl)]
        congr 2
        apply Finset.sum_congr rfl
        intro j hj
        rw [Finset.mem_Ico] at hj
        rw [i3 j, if_pos hj]
        push_cast
        ring
      · rw [getD_congr (h5 it he), i4 it (by omega)]
    · rw [h5 m (by omega), i5 m (by omega)]


theorem zeros_getD (n j : Nat) : (List.replicate n (0 : ℚ)).getD j 0 = 0 := by
  by_cases h : j < n
  · rw [List.getD_eq_getElem _ _ (by rw [List.length_replicate]; exact h)]
    simp
  · exact Saxpy.getD_of_length_le (by rw [List.length_replicate]; omega)

theorem main_spec (p mi : Nat) (X Y : List ℚ) (a : ℚ) (hY : Y.length = p) :
    (∀ j, j < p → (main p mi X Y a).1.getD j 0 = Y.getD j 0 + (mi : ℚ) * a * X.getD j 0) ∧
    (∀ it, 1 ≤ it → it < mi → (main p mi X Y a).2.getD it 0 =
      (∑ j in Finset.range (p / 2), (Y.getD j 0 + ((it + 1 : Nat) : ℚ) * a * X.getD j 0))
        / ((p / 2 : Nat) : ℚ)) ∧
    (0 < mi → (main p mi X Y a).2.getD 0 0 =
      ((∑ j in Finset.range (p / 2), (Y.getD j 0 + ((1 : Nat) : ℚ) * a * X.getD j 0))
          / ((p / 2 : Nat) : ℚ) +
        (∑ j in Finset.Ico (p / 2) p, (Y.getD j 0 + ((1 : Nat) : ℚ) * a * X.getD j 0))
          / ((p - p / 2 : Nat) : ℚ)) / 2) := by
  have hh : p / 2 ≤ p := Nat.div_le_self p 2
  obtain ⟨a1, a2, a3, a4, _⟩ := saxpy_spec a X 0 (p / 2) Y (List.replicate mi 0)
    (Nat.zero_le _) (by omega) mi (by rw [List.length_replicate])
  obtain ⟨b1, b2, b3, b4, _⟩ := saxpy_spec a X (p / 2) p
    (saxpy mi a X 0 (p / 2) (Y, List.replicate mi 0)).1 (List.replicate mi 0)
    hh (by omega) mi (by rw [List.length_replicate])
  have hm1 : (main p mi X Y a).1 = (saxpy mi a X (p / 2) p
      ((saxpy mi a X 0 (p / 2) (Y, List.replicate mi 0)).1, List.replicate mi 0)).1 := rfl
  have hm2 : (main p mi X Y a).2 =
      (saxpy mi a X 0 (p / 2) (Y, List.replicate mi 0)).2.set 0
        (((saxpy mi a X 0 (p / 2) (Y, List.replicate mi 0)).2.getD 0 0 +
          (saxpy mi a X (p / 2) p
            ((saxpy mi a X 0 (p / 2) (Y, List.replicate mi 0)).1,
              List.replicate mi 0)).2.getD 0 0) / 2) := rfl
  refine ⟨fun j hj => ?_, fun it h1 h2 => ?_, fun h0 => ?_⟩
  · rw [hm1, b3 j, a3 j]
    by_cases hlt : j < p / 2
    · rw [if_neg (by omega), if_pos ⟨Nat.zero_le _, hlt⟩]
    · rw [if_pos (by omega), if_neg (by omega)]
  · rw [hm2, getD_set_ne _ (by omega), a4 it h2, zeros_getD, zero_add, Nat.sub_zero,
      Finset.range_eq_Ico]
  · have e1 := a4 0 h0
    have e2 := b4 0 h0
    simp only [zeros_getD, zero_add, Nat.sub_zero] at e1 e2
    have e3 : ∑ j in Finset.Ico (p / 2) p,
          ((saxpy mi a X 0 (p / 2) (Y, List.replicate mi 0)).1.getD j 0
            + ((1 : Nat) : ℚ) * a * X.getD j 0) =
        ∑ j in Finset.Ico (p / 2) p, (Y.getD j 0 + ((1 : Nat) : ℚ) * a * X.getD j 0) := by
      apply Finset.sum_congr rfl
      intro j hj
      rw [Finset.mem_Ico] at hj
      rw [a3 j, if_neg (by omega)]
    rw [hm2, getD_set_self _ (by rw [a2, List.length_replicate]; exact h0), e1, e2, e3,
      Finset.range_eq_Ico]

theorem main_swapped_eq (p mi : Nat) (X Y : List ℚ) (a : ℚ) (hY : Y.length = p) :
    main_swapped p mi X Y a = main p mi X Y a := by
  have hh : p / 2 ≤ p := Nat.div_le_self p 2
  -- source order
  obtain ⟨a1, a2, a3, a4, a5⟩ := saxpy_spec a X 0 (p / 2) Y (List.replicate mi 0)
    (Nat.zero_le _) (by omega) mi (by rw [List.length_replicate])
  obtain ⟨b1, b2, b3, b4, b5⟩ := saxpy_spec a X (p / 2) p
    (saxpy mi a X 0 (p / 2) (Y, List.replicate mi 0)).1 (List.replicate mi 0)
    hh (by omega) mi (by rw [List.length_replicate])
  -- swapped order
  obtain ⟨c1, c2, c3, c4, c5⟩ := saxpy_spec a X (p / 2) p Y (List.replicate mi 0)
    hh (by omega) mi (by rw [List.length_replicate])
  obtain ⟨d1, d2, d3, d4, d5⟩ := saxpy_spec a X 0 (p / 2)
    (saxpy mi a X (p / 2) p (Y, List.replicate mi 0)).1 (List.replicate mi 0)
    (Nat.zero_le _) (by omega) mi (by rw [List.length_replicate])
  have eY : (saxpy mi a X 0 (p / 2)
        ((saxpy mi a X (p / 2) p (Y, List.replicate mi 0)).1, List.replicate mi 0)).1 =
      (saxpy mi a X (p / 2) p
        ((saxpy mi a X 0 (p / 2) (Y, List.replicate mi 0)).1, List.replicate mi 0)).1 := by
    apply Saxpy.ext_getD
    · rw [d1, c1, b1, a1]
    · intro j _
      rw [d3 j, c3 j, b3 j, a3 j]
      by_cases hlt : j < p / 2
      · rw [if_pos ⟨Nat.zero_le _, hlt⟩, if_neg (by omega), if_neg (by omega),
          if_pos ⟨Nat.zero_le _, hlt⟩]
      · by_cases hjp : j < p
        · rw [if_neg (by omega), if_pos (by omega), if_pos (by omega), if_neg (by omega)]
        · rw [if_neg (by omega), if_neg (by omega), if_neg (by omega), if_neg (by omega)]
  have eA : (saxpy mi a X 0 (p / 2)
        ((saxpy mi a X (p / 2) p (Y, List.replicate mi 0)).1, List.replicate mi 0)).2 =
      (saxpy mi a X 0 (p / 2) (Y, List.replicate mi 0)).2 := by
    apply Saxpy.ext_getD
    · rw [d2, a2]
    · intro it hit
      rw [d2, List.length_replicate] at hit
      rw [d4 it hit, a4 it hit]
      congr 2
      apply Finset.sum_congr rfl
      intro j hj
      rw [Finset.mem_Ico] at hj
      rw [c3 j, if_neg (by omega)]
  have eB : (saxpy mi a X (p / 2) p (Y, List.replicate mi 0)).2 =
      (saxpy mi a X (p / 2) p
        ((saxpy mi a X 0 (p / 2) (Y, List.replicate mi 0)).1, List.replicate mi 0)).2 := by
    apply Saxpy.ext_getD
    · rw [c2, b2]
    · intro it hit
      rw [c2, List.length_replicate] at hit
      rw [c4 it hit, b4 it hit]
      congr 2
      apply Finset.sum_congr rfl
      intro j hj
      rw [Finset.mem_Ico] at hj
      rw [a3 j, if_neg (by omega)]
  show (_, List.set _ 0 _) = (_, List.set _ 0 _)
  rw [eY, eA, eB]

/-- Claim C10: in `saxpy2.c`, for `p >= 2`, `max_iters >= 2` and the zero-initialised
average array, after both workers and the combination step of `main`: every entry
`Y_avgs[it]` with `1 <= it < max_iters` is the sum of `Y` over `[0, p/2)` as it stands
after the update of iteration `it` (the final `Y` of a run of `it + 1` iterations),
divided by `p/2`, and it does not change when `X` and `Y` are changed on `[p/2, p)`;
entry 0 is the half-sum of the mean over `[0, p/2)` and the mean over `[p/2, p)` after the
first update; after `k` iterations `Y[j] = Y0[j] + k * a * X[j]`; and the result is the
same when the second worker runs before the first. -/
theorem saxpy2_later_averages_use_first_half (p mi : Nat) (a : ℚ) (X Y : List ℚ)
    (_hp : 2 ≤ p) (hmi : 2 ≤ mi) (_hX : X.length = p) (hY : Y.length = p) :
    (∀ it, 1 ≤ it → it < mi → (main p mi X Y a).2.getD it 0 =
      (∑ j in Finset.range (p / 2), (main p (it + 1) X Y a).1.getD j 0)
        / ((p / 2 : Nat) : ℚ)) ∧
    (∀ X' Y' : List ℚ, X'.length = p → Y'.length = p →
      (∀ j, j < p / 2 → X'.getD j 0 = X.getD j 0 ∧ Y'.getD j 0 = Y.getD j 0) →
      ∀ it, 1 ≤ it → it < mi →
        (main p mi X' Y' a).2.getD it 0 = (main p mi X Y a).2.getD it 0) ∧
    (main p mi X Y a).2.getD 0 0 =
      ((∑ j in Finset.range (p / 2), (main p 1 X Y a).1.getD j 0) / ((p / 2 : Nat) : ℚ) +
        (∑ j in Finset.Ico (p / 2) p, (main p 1 X Y a).1.getD j 0)
          / ((p - p / 2 : Nat) : ℚ)) / 2 ∧
    (∀ k j, j < p → (main p k X Y a).1.getD j 0 = Y.getD j 0 + (k : ℚ) * a * X.getD j 0) ∧
    main_swapped p mi X Y a = main p mi X Y a := by
  have hh : p / 2 ≤ p := Nat.div_le_self p 2
  obtain ⟨_, m2, m3⟩ := main_spec p mi X Y a hY
  have hYk : ∀ k j, j < p →
      (main p k X Y a).1.getD j 0 = Y.getD j 0 + (k : ℚ) * a * X.getD j 0 :=
    fun k j hj => (main_spec p k X Y a hY).1 j hj
  refine ⟨fun it h1 h2 => ?_, fun X' Y' _ hY' hag it h1 h2 => ?_, ?_, hYk,
    main_swapped_eq p mi X Y a hY⟩
  · rw [m2 it h1 h2]
    congr 1
    apply Finset.sum_congr rfl
    intro j hj
    rw [Finset.mem_range] at hj
    rw [hYk (it + 1) j (by omega)]
  · rw [m2 it h1 h2, (main_spec p mi X' Y' a hY').2.1 it h1 h2]
    congr 1
    apply Finset.sum_congr rfl
    intro j hj
    rw [Finset.mem_range] at hj
    rw [(hag j hj).1, (hag j hj).2]
  · rw [m3 (by omega)]
    congr 2
    · congr 1
      apply Finset.sum_congr rfl
      intro j hj
      rw [Finset.mem_range] at hj
      rw [hYk 1 j (by omega)]
    · congr 1
      apply Finset.sum_congr rfl
      intro j hj
      rw [Finset.mem_Ico] at hj
      rw [hYk 1 j (by omega)]

/-- Concrete instance: `p = 5`, three iterations, `a = 2`. -/
theorem saxpy2_later_averages_use_first_half_witness :
    ((∀ it, 1 ≤ it → it < 3 → (main 5 3 [1, 1, 1, 1, 1] [0, 0, 0, 0, 3] 2).2.getD it 0 =
      (∑ j in Finset.range (5 / 2), (main 5 (it + 1) [1, 1, 1, 1, 1] [0, 0, 0, 0, 3] 2).1.getD j 0)
        / ((5 / 2 : Nat) : ℚ)) ∧
    (∀ X' Y' : List ℚ, X'.length = 5 → Y'.length = 5 →
      (∀ j, j < 5 / 2 → X'.getD j 0 = [(1 : ℚ), 1, 1, 1, 1].getD j 0 ∧
        Y'.getD j 0 = [(0 : ℚ), 0, 0, 0, 3].getD j 0) →
      ∀ it, 1 ≤ it → it < 3 →
        (main 5 3 X' Y' 2).2.getD it 0 =
          (main 5 3 [1, 1, 1, 1, 1] [0, 0, 0, 0, 3] 2).2.getD it 0) ∧
    (main 5 3 [1, 1, 1, 1, 1] [0, 0, 0, 0, 3] 2).2.getD 0 0 =
      ((∑ j in Finset.range (5 / 2), (main 5 1 [1, 1, 1, 1, 1] [0, 0, 0, 0, 3] 2).1.getD j 0)
          / ((5 / 2 : Nat) : ℚ) +
        (∑ j in Finset.Ico (5 / 2) 5, (main 5 1 [1, 1, 1, 1, 1] [0, 0, 0, 0, 3] 2).1.getD j 0)
          / ((5 - 5 / 2 : Nat) : ℚ)) / 2 ∧
    (∀ k j, j < 5 → (main 5 k [1, 1, 1, 1, 1] [0, 0, 0, 0, 3] 2).1.getD j 0 =
      [(0 : ℚ), 0, 0, 0, 3].getD j 0 + (k : ℚ) * 2 * [(1 : ℚ), 1, 1, 1, 1].getD j 0) ∧
    main_swapped 5 3 [1, 1, 1, 1, 1] [0, 0, 0, 0, 3] 2 =
      main 5 3 [1, 1, 1, 1, 1] [0, 0, 0, 0, 3] 2) ∧
    main 5 3 [1, 1, 1, 1, 1] [0, 0, 0, 0, 3] 2 = ([6, 6, 6, 6, 9], [5 / 2, 4, 6]) :=
  ⟨saxpy2_later_averages_use_first_half 5 3 2 [1, 1, 1, 1, 1] [0, 0, 0, 0, 3]
    (by decide) (by decide) rfl rfl, by
    simp [main, saxpy, iteration, inner_step, List.range_succ, List.range'_succ]
    norm_num⟩

end Saxpy2

namespace Saxpy

/-! ## Every interleaving of the workers under the barrier contract -/

theorem inv_start (n : Nat) (mem : Shared) (h0 : mem.it = 0) : Inv (start_config n mem) := by
  refine ⟨fun u hu => ?_, fun u v hu hv => ?_, fun l hl => ?_⟩
  · obtain ⟨_, rfl⟩ := List.mem_replicate.mp hu
    exact ⟨rfl, rfl⟩
  · obtain ⟨_, rfl⟩ := List.mem_replicate.mp hu
    exact Nat.zero_le _
  · have hm : l ∈ List.replicate n (⟨PC.test, 0, 0, 0⟩ : Thread) := List.getElem?_mem hl
    obtain ⟨_, rfl⟩ := List.mem_replicate.mp hm
    exact h0

/-- Replacing thread `i` by a thread that has called and returned no less, is itself
well-shaped, and has returned from no call that some thread has not made yet, keeps the
invariant, provided the counter `it` matches the reductions of worker 0. -/
theorem inv_set (c : Config) (hI : Inv c) (i : Nat) (t t1 : Thread) (m1 : Shared)
    (hti : c.thr[i]? = some t) (hsh : shape t1) (hw : t.waits ≤ t1.waits)
    (hrw : t1.returned ≤ t1.waits) (hrv : ∀ v, v ∈ c.thr → t1.returned ≤ v.waits)
    (hl0 : i = 0 → m1.it = reductions t1) (hl1 : i ≠ 0 → m1.it = c.mem.it) :
    Inv { thr := c.thr.set i t1, mem := m1 } := by
  obtain ⟨h1, h2, h3⟩ := hI
  have ht : t ∈ c.thr := List.getElem?_mem hti
  refine ⟨fun u hu => ?_, fun u v hu hv => ?_, fun l hl => ?_⟩
  · rcases List.mem_or_eq_of_mem_set hu with hu1 | hu1
    · exact h1 u hu1
    · rw [hu1]
      exact hsh
  · rcases List.mem_or_eq_of_mem_set hu with hu1 | hu1
    · rcases List.mem_or_eq_of_mem_set hv with hv1 | hv1
      · exact h2 u v hu1 hv1
      · rw [hv1]
        exact le_trans (h2 u t hu1 ht) hw
    · rcases List.mem_or_eq_of_mem_set hv with hv1 | hv1
      · rw [hu1]
        exact hrv v hv1
      · rw [hu1, hv1]
        exact hrw
  · have hl2 : (c.thr.set i t1)[0]? = some l := hl
    rw [List.getElem?_set] at hl2
    by_cases hi : i = 0
    · rw [if_pos hi] at hl2
      have hlt : i < c.thr.length := (List.getElem?_eq_some_iff.mp hti).1
      rw [if_pos hlt] at hl2
      have : t1 = l := Option.some.inj hl2
      subst this
      exact hl0 hi
    · rw [if_neg hi] at hl2
      show m1.it = _
      rw [hl1 hi]
      exact h3 l hl2

theorem reduce_it_leader (mi p n : Nat) (a : ℚ) (s : Shared) :
    (reduce (main_args mi p n a 0) s).it = s.it + 1 :=
  (reduce_frame (main_args mi p n a 0) s).2.2.2.2.2.1 rfl

theorem reduce_it_other (mi p n : Nat) (a : ℚ) (i : Nat) (hi : i ≠ 0) (s : Shared) :
    (reduce (main_args mi p n a i) s).it = s.it := by
  rw [reduce_of_ne_zero _ _ (show (main_args mi p n a i).id ≠ 0 from hi)]

theorem step_inv (mi p n : Nat) (a : ℚ) (i : Nat) (c c1 : Config) (hI : Inv c)
    (hs : step mi p n a i c = some c1) : Inv c1 := by
  unfold step at hs
  cases hti : c.thr[i]? with
  | none => rw [hti] at hs; exact absurd hs (by simp)
  | some t =>
    rw [hti] at hs
    have ht : t ∈ c.thr := List.getElem?_mem hti
    have hsh := hI.1 t ht
    have hret : ∀ v, v ∈ c.thr → t.returned ≤ v.waits := fun v hv => hI.2.1 t v ht hv
    have hlead : i = 0 → c.mem.it = reductions t := fun hi => hI.2.2 t (hi ▸ hti)
    cases hpc : t.pc with
    | test =>
      simp only [hpc] at hs
      have := Option.some.inj hs
      subst this
      simp only [shape, hpc] at hsh
      simp only [reductions, hpc] at hlead
      by_cases hlt : c.mem.it < mi
      · rw [if_pos hlt]
        exact inv_set c hI i t _ c.mem hti hsh le_rfl (by show t.returned ≤ t.waits; omega)
          hret hlead (fun _ => rfl)
      · rw [if_neg hlt]
        exact inv_set c hI i t _ c.mem hti hsh le_rfl (by show t.returned ≤ t.waits; omega)
          hret hlead (fun _ => rfl)
    | work =>
      simp only [hpc] at hs
      have := Option.some.inj hs
      subst this
      simp only [shape, hpc] at hsh
      simp only [reductions, hpc] at hlead
      refine inv_set c hI i t _ _ hti (show _ ∧ _ from ⟨?_, ?_⟩) le_rfl ?_ hret ?_ ?_
      · show t.waits + 2 = 2 * (t.published + 1); omega
      · show t.returned = t.waits; omega
      · show t.returned ≤ t.waits; omega
      · intro hi
        show c.mem.it = t.published + 1 - 1
        have := hlead hi
        omega
      · intro _
        rfl
    | callA =>
      simp only [hpc] at hs
      have := Option.some.inj hs
      subst this
      simp only [shape, hpc] at hsh
      simp only [reductions, hpc] at hlead
      refine inv_set c hI i t _ c.mem hti (show _ ∧ _ from ⟨?_, ?_⟩) ?_ ?_ hret hlead
        (fun _ => rfl)
      · show t.waits + 1 + 1 = 2 * t.published; omega
      · show t.returned + 1 = t.waits + 1; omega
      · show t.waits ≤ t.waits + 1; omega
      · show t.returned ≤ t.waits + 1; omega
    | inA =>
      simp only [hpc] at hs
      by_cases hg : may_leave c t = true
      · rw [if_pos hg] at hs
        have := Option.some.inj hs
        subst this
        simp only [shape, hpc] at hsh
        simp only [reductions, hpc] at hlead
        have hall : ∀ v, v ∈ c.thr → t.waits ≤ v.waits := by
          intro v hv
          have := List.all_eq_true.mp hg v hv
          exact of_decide_eq_true this
        refine inv_set c hI i t _ c.mem hti (show _ ∧ _ from ⟨?_, ?_⟩) le_rfl ?_ ?_ hlead
          (fun _ => rfl)
        · show t.waits + 1 = 2 * t.published; omega
        · show t.returned + 1 = t.waits; omega
        · show t.returned + 1 ≤ t.waits; omega
        · intro v hv
          show t.returned + 1 ≤ v.waits
          have := hall v hv
          omega
      · rw [if_neg hg] at hs
        exact absurd hs (by simp)
    | mid =>
      simp only [hpc] at hs
      have := Option.some.inj hs
      subst this
      simp only [shape, hpc] at hsh
      simp only [reductions, hpc] at hlead
      refine inv_set c hI i t _ _ hti (show _ ∧ _ from ⟨?_, ?_⟩) le_rfl ?_ hret ?_ ?_
      · show t.waits + 1 = 2 * t.published; omega
      · show t.returned = t.waits; omega
      · show t.returned ≤ t.waits; omega
      · intro hi
        subst hi
        rw [reduce_it_leader]
        show c.mem.it + 1 = t.published
        have := hlead rfl
        omega
      · intro hi
        exact reduce_it_other mi p n a i hi c.mem
    | callB =>
      simp only [hpc] at hs
      have := Option.some.inj hs
      subst this
      simp only [shape, hpc] at hsh
      simp only [reductions, hpc] at hlead
      refine inv_set c hI i t _ c.mem hti (show _ ∧ _ from ⟨?_, ?_⟩) ?_ ?_ hret hlead
        (fun _ => rfl)
      · show t.waits + 1 = 2 * t.published; omega
      · show t.returned + 1 = t.waits + 1; omega
      · show t.waits ≤ t.waits + 1; omega
      · show t.returned ≤ t.waits + 1; omega
    | inB =>
      simp only [hpc] at hs
      by_cases hg : may_leave c t = true
      · rw [if_pos hg] at hs
        have := Option.some.inj hs
        subst this
        simp only [shape, hpc] at hsh
        simp only [reductions, hpc] at hlead
        have hall : ∀ v, v ∈ c.thr → t.waits ≤ v.waits := by
          intro v hv
          have := List.all_eq_true.mp hg v hv
          exact of_decide_eq_true this
        refine inv_set c hI i t _ c.mem hti (show _ ∧ _ from ⟨?_, ?_⟩) le_rfl ?_ ?_ hlead
          (fun _ => rfl)
        · show t.waits = 2 * t.published; omega
        · show t.returned + 1 = t.waits; omega
        · show t.returned + 1 ≤ t.waits; omega
        · intro v hv
          show t.returned + 1 ≤ v.waits
          have := hall v hv
          omega
      · rw [if_neg hg] at hs
        exact absurd hs (by simp)
    | done =>
      simp only [hpc] at hs
      exact absurd hs (by simp)

theorem exec_inv (mi p n : Nat) (a : ℚ) (sched : List Nat) (c c1 : Config) (hI : Inv c)
    (he : exec mi p n a sched c = some c1) : Inv c1 := by
  induction sched generalizing c with
  | nil =>
    have : c = c1 := Option.some.inj he
    subst this
    exact hI
  | cons i rest ih =>
    unfold exec at he
    cases hs : step mi p n a i c with
    | none => rw [hs] at he; exact absurd he (by simp)
    | some c2 =>
      rw [hs] at he
      exact ih c2 (step_inv mi p n a i c c2 hI hs) he

theorem leader_exists (c : Config) (u : Thread) (hu : u ∈ c.thr) :
    ∃ l, c.thr[0]? = some l ∧ l ∈ c.thr := by
  cases hc : c.thr with
  | nil => rw [hc] at hu; exact absurd hu (List.not_mem_nil u)
  | cons l rest => exact ⟨l, by simp, List.mem_cons_self l rest⟩

theorem step_length (mi p n : Nat) (a : ℚ) (i : Nat) (c c1 : Config)
    (hs : step mi p n a i c = some c1) : c1.thr.length = c.thr.length := by
  unfold step at hs
  cases hti : c.thr[i]? with
  | none => rw [hti] at hs; exact absurd hs (by simp)
  | some t =>
    rw [hti] at hs
    cases hpc : t.pc <;> simp only [hpc] at hs
    case inA | inB =>
      by_cases hg : may_leave c t = true
      · rw [if_pos hg] at hs
        rw [← Option.some.inj hs]
        exact List.length_set _ _ _
      · rw [if_neg hg] at hs
        exact absurd hs (by simp)
    case done => exact absurd hs (by simp)
    all_goals
      rw [← Option.some.inj hs]
      exact List.length_set _ _ _

theorem exec_length (mi p n : Nat) (a : ℚ) (sched : List Nat) (c c1 : Config)
    (he : exec mi p n a sched c = some c1) : c1.thr.length = c.thr.length := by
  induction sched generalizing c with
  | nil => rw [← Option.some.inj he]
  | cons i rest ih =>
    unfold exec at he
    cases hs : step mi p n a i c with
    | none => rw [hs] at he; exact absurd he (by simp)
    | some c2 =>
      rw [hs] at he
      rw [ih c2 he, step_length mi p n a i c c2 hs]

/-- Claim C8: in every interleaving of the `n_threads` workers, started by `main` with
the counter at 0 and synchronised by the barrier for `n_threads` parties, every state
that can be reached satisfies: (1) all `n_threads` workers are present and no call of the
barrier has returned for a worker before every worker has made that call; (2) whenever
worker 0 stands before the reduction, with the counter at `it`, every worker has
published exactly `it + 1` partial sums and is between its first wait and the end of its
second wait, so the reduction of iteration `it` comes after all publications of iteration
`it` and before any of iteration `it + 1`; (3) whenever a worker inside the second wait
is allowed to return, the counter already equals the number of its publications, and a
worker that has returned from `r` calls finds `r <= 2 * it + 1`, so the reduction of an
iteration comes before any worker leaves the second barrier of that iteration; (4) a
worker that stands at the loop test or before its compute phase, having published `k`
partial sums, reads the counter at exactly `k`: it tests the condition and starts
iteration `k` only after the counter has advanced past `k - 1`. -/
theorem barrier_orders_reduction (mi p n : Nat) (a : ℚ) (X Y ps : List ℚ)
    (sched : List Nat) (c : Config)
    (he : exec mi p n a sched (start_config n (init mi X Y ps)) = some c) :
    (c.thr.length = n ∧ ∀ u v, u ∈ c.thr → v ∈ c.thr → u.returned ≤ v.waits) ∧
    (∀ l, c.thr[0]? = some l → l.pc = PC.mid → ∀ u, u ∈ c.thr →
      u.published = c.mem.it + 1 ∧
      (u.pc = PC.inA ∨ u.pc = PC.mid ∨ u.pc = PC.callB ∨ u.pc = PC.inB)) ∧
    ((∀ u, u ∈ c.thr → u.pc = PC.inB → may_leave c u = true → c.mem.it = u.published) ∧
      ∀ u, u ∈ c.thr → u.returned ≤ 2 * c.mem.it + 1) ∧
    (∀ u, u ∈ c.thr → (u.pc = PC.test ∨ u.pc = PC.work) → c.mem.it = u.published) := by
  have hI : Inv c := exec_inv mi p n a sched _ c (inv_start n (init mi X Y ps) rfl) he
  have hlen : c.thr.length = n := by
    rw [exec_length mi p n a sched _ c he]
    exact List.length_replicate _ _
  obtain ⟨h1, h2, h3⟩ := hI
  refine ⟨⟨hlen, h2⟩, fun l hl hlpc u hu => ?_, ⟨fun u hu hupc hg => ?_, fun u hu => ?_⟩,
    fun u hu hupc => ?_⟩
  · have hlm : l ∈ c.thr := List.getElem?_mem hl
    have s1 := h1 l hlm
    have s2 := h1 u hu
    have a1 := h2 l u hlm hu
    have a2 := h2 u l hu hlm
    have a3 := h3 l hl
    simp only [shape, hlpc] at s1
    simp only [reductions, hlpc] at a3
    cases hq : u.pc <;> simp only [shape, hq] at s2 <;>
      first
      | omega
      | exact ⟨by omega, by simp⟩
  · obtain ⟨l, hl, hlm⟩ := leader_exists c u hu
    have s1 := h1 l hlm
    have s2 := h1 u hu
    have a1 := h2 l u hlm hu
    have a2 : u.waits ≤ l.waits := of_decide_eq_true (List.all_eq_true.mp hg l hlm)
    have a3 := h3 l hl
    simp only [shape, hupc] at s2
    cases hq : l.pc <;> simp only [shape, hq] at s1 <;> simp only [reductions, hq] at a3 <;>
      omega
  · obtain ⟨l, hl, hlm⟩ := leader_exists c u hu
    have s1 := h1 l hlm
    have a2 := h2 u l hu hlm
    have a3 := h3 l hl
    cases hq : l.pc <;> simp only [shape, hq] at s1 <;> simp only [reductions, hq] at a3 <;>
      omega
  · obtain ⟨l, hl, hlm⟩ := leader_exists c u hu
    have s1 := h1 l hlm
    have s2 := h1 u hu
    have a1 := h2 l u hlm hu
    have a2 := h2 u l hu hlm
    have a3 := h3 l hl
    have s3 : u.waits = 2 * u.published ∧ u.returned = u.waits := by
      rcases hupc with e | e <;> simpa only [shape, e] using s2
    cases hq : l.pc <;> simp only [shape, hq] at s1 <;> simp only [reductions, hq] at a3 <;>
      omega

/-- Concrete instance: two workers and one iteration on `X = [1, 1]`, `Y = [0, 0]`,
`a = 2`, in an interleaving where worker 1 finishes while worker 0 is still inside the
second wait; both workers reach the end and the memory holds `Y = [2, 2]`,
`Y_avgs = [2]`, `it = 1`. -/
theorem barrier_orders_reduction_witness :
    ∃ c : Config,
      exec 1 2 2 2 [1, 0, 0, 1, 0, 1, 0, 0, 1, 0, 1, 1, 1, 1, 0, 0]
        (start_config 2 (init 1 [1, 1] [0, 0] [0, 0])) = some c ∧
      c = { thr := [⟨PC.done, 1, 2, 2⟩, ⟨PC.done, 1, 2, 2⟩],
            mem := ⟨[1, 1], [2, 2], [2], [2, 2], 1⟩ } ∧
      (c.thr.length = 2 ∧ ∀ u v, u ∈ c.thr → v ∈ c.thr → u.returned ≤ v.waits) ∧
      (∀ l, c.thr[0]? = some l → l.pc = PC.mid → ∀ u, u ∈ c.thr →
        u.published = c.mem.it + 1 ∧
        (u.pc = PC.inA ∨ u.pc = PC.mid ∨ u.pc = PC.callB ∨ u.pc = PC.inB)) ∧
      ((∀ u, u ∈ c.thr → u.pc = PC.inB → may_leave c u = true → c.mem.it = u.published) ∧
        ∀ u, u ∈ c.thr → u.returned ≤ 2 * c.mem.it + 1) ∧
      (∀ u, u ∈ c.thr → (u.pc = PC.test ∨ u.pc = PC.work) → c.mem.it = u.published) := by
  have he : exec 1 2 2 2 [1, 0, 0, 1, 0, 1, 0, 0, 1, 0, 1, 1, 1, 1, 0, 0]
      (start_config 2 (init 1 [1, 1] [0, 0] [0, 0])) =
      some { thr := [⟨PC.done, 1, 2, 2⟩, ⟨PC.done, 1, 2, 2⟩],
             mem := ⟨[1, 1], [2, 2], [2], [2, 2], 1⟩ } := by
    simp [exec, step, may_leave, start_config, init, compute, reduce, main_args, start, end_,
      chunk_size, update_step, List.range_succ, List.range'_succ]
  exact ⟨_, he, rfl, barrier_orders_reduction 1 2 2 2 [1, 1] [0, 0] [0, 0] _ _ he⟩

end Saxpy
